import Mathlib

/-!
Verification development for the rails-mcp-indexer repository.

The TypeScript sources are shallowly embedded as Lean definitions:

* `RailsAssociationMapper` — `src/rails-association-mapper.ts`
  (`singularize`, `pluralize`, `camelize`, `tableToModel`);
* `SchemaParser` — `src/schema-parser.ts` (its private `singularize` and
  the content parser `parseContentS`);
* `GraphBuilder` — `src/graph-builder.ts` (`tableNameToModelName`);
* `GraphStore` — the `SQLiteGraphStore` class (`upsertNode`, `upsertEdge`,
  `findNodes`, `neighbors`);
* `Indexer` — the `CodeIndexer` class of `src/indexer.ts`
  (skip logic of `indexFile`, the incremental gate of `incrementalReindex`,
  and the persistence steps against `IndexDatabase` of `src/database.ts`).

JavaScript strings are modelled through their character lists; the
`%`-style SQL `LIKE` pattern produced by `findNodes` is modelled as
ASCII-case-insensitive substring containment (SQLite's default `LIKE`
semantics for ASCII, for filters that contain no wildcard); the
end-of-line-anchored `/gm` regular expressions of the schema parser are
modelled line by line.
-/

set_option maxRecDepth 4000

namespace StrOps
/-- Does `pat` occur as a prefix of `l`? (character-list level). -/
def listStartsWith : List Char → List Char → Bool
  | _, [] => true
  | [], _ :: _ => false
  | a :: as, b :: bs => a == b && listStartsWith as bs
end StrOps

namespace StrOps
/-- JavaScript `s.endsWith(suf)`. -/
def strEndsWith (s suf : String) : Bool :=
  listStartsWith s.data.reverse suf.data.reverse
end StrOps

namespace StrOps
/-- JavaScript `s.slice(0, -n)` for `n ≥ 1` (drop the last `n` characters). -/
def strDropRight (s : String) (n : Nat) : String :=
  String.mk (s.data.take (s.data.length - n))
end StrOps

namespace StrOps
/-- JavaScript `s.slice(-n)` (the last `n` characters, the whole string if shorter). -/
def strTakeRight (s : String) (n : Nat) : String :=
  String.mk (s.data.drop (s.data.length - n))
end StrOps

namespace StrOps
/-- JavaScript `part.charAt(0).toUpperCase() + part.slice(1)`. -/
def capitalizeFirst (s : String) : String :=
  match s.data with
  | [] => ""
  | c :: cs => String.mk (c.toUpper :: cs)
end StrOps

namespace StrOps
/-- JavaScript `String.prototype.split` with a one-character separator. -/
def splitChar (c : Char) : List Char → List (List Char)
  | [] => [[]]
  | x :: xs =>
    let r := splitChar c xs
    if x == c then [] :: r
    else
      match r with
      | h :: t => (x :: h) :: t
      | [] => [[x]]
end StrOps

namespace StrOps
/-- `split` at the string level. -/
def strSplitChar (c : Char) (s : String) : List String :=
  (splitChar c s.data).map String.mk
end StrOps

namespace StrOps
/-- Does `pat` occur as a (contiguous) sublist of `l`? -/
def listContainsSub (l pat : List Char) : Bool :=
  match l with
  | [] => listStartsWith [] pat
  | _ :: xs => listStartsWith l pat || listContainsSub xs pat
end StrOps

namespace StrOps
/-- JavaScript `s.includes(t)`. -/
def strContainsSub (s t : String) : Bool :=
  listContainsSub s.data t.data
end StrOps

namespace StrOps
/-- ASCII lower-casing of one character (SQLite `LIKE` folds only ASCII). -/
def asciiLower (c : Char) : Char :=
  if 'A' ≤ c && c ≤ 'Z' then Char.ofNat (c.toNat + 32) else c
end StrOps

namespace StrOps
/-- ASCII lower-casing of a string. -/
def strAsciiLower (s : String) : String :=
  String.mk (s.data.map asciiLower)
end StrOps

open StrOps

namespace RailsAssociationMapper
/-- `RailsAssociationMapper.singularize` (rails-association-mapper.ts lines 231-246). -/
def singularize (word : String) : String :=
  if strEndsWith word "ies" then strDropRight word 3 ++ "y"
  else if strEndsWith word "ses" || strEndsWith word "xes" || strEndsWith word "zes" then
    strDropRight word 2
  else if strEndsWith word "ches" || strEndsWith word "shes" then
    strDropRight word 2
  else if strEndsWith word "ves" then strDropRight word 3 ++ "f"
  else if strEndsWith word "oes" then strDropRight word 2
  else if strEndsWith word "s" && !strEndsWith word "ss" then strDropRight word 1
  else word
end RailsAssociationMapper

namespace RailsAssociationMapper
/-- `RailsAssociationMapper.pluralize` (rails-association-mapper.ts lines 248-263). -/
def pluralize (word : String) : String :=
  if strEndsWith word "y" && !(["ay", "ey", "iy", "oy", "uy"].contains (strTakeRight word 2)) then
    strDropRight word 1 ++ "ies"
  else if strEndsWith word "s" || strEndsWith word "x" || strEndsWith word "z" ||
      strEndsWith word "ch" || strEndsWith word "sh" then
    word ++ "es"
  else if strEndsWith word "f" then strDropRight word 1 ++ "ves"
  else if strEndsWith word "fe" then strDropRight word 2 ++ "ves"
  else if strEndsWith word "o" && !(["eo", "io", "oo"].contains (strTakeRight word 2)) then
    word ++ "es"
  else word ++ "s"
end RailsAssociationMapper

namespace RailsAssociationMapper
/-- `RailsAssociationMapper.camelize` (rails-association-mapper.ts lines 265-270). -/
def camelize (word : String) : String :=
  String.join ((strSplitChar '_' word).map capitalizeFirst)
end RailsAssociationMapper

namespace RailsAssociationMapper
/-- `RailsAssociationMapper.tableToModel` (rails-association-mapper.ts lines 226-229). -/
def tableToModel (tableName : String) : String :=
  camelize (singularize tableName)
end RailsAssociationMapper

namespace RailsAssociationMapper
/-- Singularization rules written from the spec's words (§4.5): in precedence
order, first match wins: `ies→y`; `ses|xes|zes|ches|shes→` drop last 2;
`ves→f`; `oes→` drop last 2; trailing `s` not preceded by another `s` → drop
last 1; else unchanged. -/
def singularizeSpec (word : String) : String :=
  if strEndsWith word "ies" then strDropRight word 3 ++ "y"
  else if strEndsWith word "ses" || strEndsWith word "xes" || strEndsWith word "zes" ||
      strEndsWith word "ches" || strEndsWith word "shes" then
    strDropRight word 2
  else if strEndsWith word "ves" then strDropRight word 3 ++ "f"
  else if strEndsWith word "oes" then strDropRight word 2
  else if strEndsWith word "s" && !strEndsWith word "ss" then strDropRight word 1
  else word
end RailsAssociationMapper

namespace SchemaParser
/-- `SchemaParser.singularize` (schema-parser.ts lines 377-387): a simpler rule
set than the association mapper's. -/
def singularize (word : String) : String :=
  if strEndsWith word "ies" then strDropRight word 3 ++ "y"
  else if strEndsWith word "es" then strDropRight word 2
  else if strEndsWith word "s" then strDropRight word 1
  else word
end SchemaParser

namespace SchemaParser
/-- `SchemaParser.pluralToSingular` (schema-parser.ts lines 389-391). -/
def pluralToSingular (word : String) : String :=
  singularize word
end SchemaParser

namespace GraphBuilder
/-- `GraphBuilder.tableNameToModelName` (graph-builder.ts lines 388-408):
inline three-rule singularization followed by snake_case → CamelCase. -/
def tableNameToModelName (tableName : String) : String :=
  let modelName := tableName
  let modelName :=
    if strEndsWith modelName "ies" then strDropRight modelName 3 ++ "y"
    else if strEndsWith modelName "es" then strDropRight modelName 2
    else if strEndsWith modelName "s" then strDropRight modelName 1
    else modelName
  String.join ((strSplitChar '_' modelName).map capitalizeFirst)
end GraphBuilder

namespace GraphStore
/-- A row of the `kg_nodes` table (graph-store interface `KGNode`, with the
`meta_json` column kept as its serialized string). -/
structure KGNode where
  id : Nat
  kind : String
  key : String
  label : String
  source : String
  file_path : Option String
  start_line : Option Nat
  end_line : Option Nat
  meta : String
deriving DecidableEq
end GraphStore

namespace GraphStore
/-- A row of the `kg_edges` table (graph-store interface `KGEdge`). -/
structure KGEdge where
  id : Nat
  kind : String
  src_id : Nat
  dst_id : Nat
  src_loc : Option String
  dst_loc : Option String
  meta : String
deriving DecidableEq
end GraphStore

namespace GraphStore
/-- The SQLite store backing `SQLiteGraphStore`: the two tables plus the next
`AUTOINCREMENT` row ids. -/
structure GraphDB where
  nodes : List KGNode
  edges : List KGEdge
  nextNodeId : Nat
  nextEdgeId : Nat
deriving DecidableEq
end GraphStore

namespace GraphStore
/-- Argument of `upsertNode` (a `KGNode` without its row id; `label` optional). -/
structure NodeInput where
  kind : String
  key : String
  label : Option String
  source : String
  file_path : Option String
  start_line : Option Nat
  end_line : Option Nat
  meta : String
deriving DecidableEq
end GraphStore

namespace GraphStore
/-- JavaScript `n.label || n.key` (an absent or empty label falls back to the key). -/
def labelOrKey (n : NodeInput) : String :=
  match n.label with
  | some l => if l = "" then n.key else l
  | none => n.key
end GraphStore

namespace GraphStore
/-- The `ON CONFLICT(kind, key)` target of `upsertNode`. -/
def nodeConflict (n : NodeInput) (m : KGNode) : Bool :=
  m.kind == n.kind && m.key == n.key
end GraphStore

namespace GraphStore
/-- The `DO UPDATE SET label/source/file_path/start_line/end_line/meta_json`
clause of `upsertNode`. -/
def overwriteNode (n : NodeInput) (m : KGNode) : KGNode :=
  { m with
    label := labelOrKey n, source := n.source, file_path := n.file_path,
    start_line := n.start_line, end_line := n.end_line, meta := n.meta }
end GraphStore

namespace GraphStore
/-- `SQLiteGraphStore.upsertNode`: insert, or on `(kind, key)` conflict update
the mutable columns of the conflicting row; returns the row id. -/
def upsertNode (db : GraphDB) (n : NodeInput) : GraphDB × Nat :=
  match db.nodes.find? (nodeConflict n) with
  | some m =>
    ({ db with nodes := db.nodes.map fun x => if nodeConflict n x then overwriteNode n x else x },
      m.id)
  | none =>
    let fresh : KGNode :=
      { id := db.nextNodeId, kind := n.kind, key := n.key, label := labelOrKey n,
        source := n.source, file_path := n.file_path, start_line := n.start_line,
        end_line := n.end_line, meta := n.meta }
    ({ db with nodes := db.nodes ++ [fresh], nextNodeId := db.nextNodeId + 1 }, db.nextNodeId)
end GraphStore

namespace GraphStore
/-- Argument of `upsertEdge` (a `KGEdge` without its row id). -/
structure EdgeInput where
  kind : String
  src_id : Nat
  dst_id : Nat
  src_loc : Option String
  dst_loc : Option String
  meta : String
deriving DecidableEq
end GraphStore

namespace GraphStore
/-- The `ON CONFLICT(kind, src_id, dst_id)` target of `upsertEdge`. -/
def edgeConflict (e : EdgeInput) (x : KGEdge) : Bool :=
  x.kind == e.kind && x.src_id == e.src_id && x.dst_id == e.dst_id
end GraphStore

namespace GraphStore
/-- The `DO UPDATE SET src_loc/dst_loc/meta_json` clause of `upsertEdge`. -/
def overwriteEdge (e : EdgeInput) (x : KGEdge) : KGEdge :=
  { x with src_loc := e.src_loc, dst_loc := e.dst_loc, meta := e.meta }
end GraphStore

namespace GraphStore
/-- `SQLiteGraphStore.upsertEdge`. -/
def upsertEdge (db : GraphDB) (e : EdgeInput) : GraphDB × Nat :=
  match db.edges.find? (edgeConflict e) with
  | some m =>
    ({ db with edges := db.edges.map fun x => if edgeConflict e x then overwriteEdge e x else x },
      m.id)
  | none =>
    let fresh : KGEdge :=
      { id := db.nextEdgeId, kind := e.kind, src_id := e.src_id, dst_id := e.dst_id,
        src_loc := e.src_loc, dst_loc := e.dst_loc, meta := e.meta }
    ({ db with edges := db.edges ++ [fresh], nextEdgeId := db.nextEdgeId + 1 }, db.nextEdgeId)
end GraphStore

namespace GraphStore
/-- JavaScript truthiness of the optional `kind` / `q` filters: an empty string
is falsy, so it deactivates the filter. -/
def optFilter (o : Option String) : Option String :=
  match o with
  | some s => if s = "" then none else some s
  | none => none
end GraphStore

namespace GraphStore
/-- SQL `column LIKE '%q%'` with SQLite's default ASCII-case-insensitive
`LIKE`, for a filter without wildcard characters. -/
def likeContains (hay q : String) : Bool :=
  strContainsSub (strAsciiLower hay) (strAsciiLower q)
end GraphStore

namespace GraphStore
/-- The `WHERE` clause assembled by `findNodes`. -/
def nodeMatches (kind? q? : Option String) (n : KGNode) : Bool :=
  (match kind? with | some k => n.kind == k | none => true)
    && (match q? with | some q => likeContains n.key q || likeContains n.label q | none => true)
end GraphStore

namespace GraphStore
/-- Strict lexicographic comparison of character lists (SQLite's default text
ordering restricted to the strings appearing here). -/
def listCharLt : List Char → List Char → Bool
  | [], [] => false
  | [], _ :: _ => true
  | _ :: _, [] => false
  | a :: as, b :: bs => Nat.blt a.toNat b.toNat || (a == b && listCharLt as bs)
end GraphStore

namespace GraphStore
/-- The `ORDER BY kind, key` comparison of `findNodes`. -/
def nodeLe (a b : KGNode) : Bool :=
  listCharLt a.kind.data b.kind.data
    || (a.kind == b.kind && !listCharLt b.key.data a.key.data)
end GraphStore

namespace GraphStore
/-- Insertion step of the `ORDER BY` sort. -/
def insertByKindKey (x : KGNode) : List KGNode → List KGNode
  | [] => [x]
  | y :: ys => if nodeLe x y then x :: y :: ys else y :: insertByKindKey x ys
end GraphStore

namespace GraphStore
/-- The `ORDER BY kind, key` sort. -/
def sortByKindKey : List KGNode → List KGNode
  | [] => []
  | x :: xs => insertByKindKey x (sortByKindKey xs)
end GraphStore

namespace GraphStore
/-- JavaScript `opts.limit || 50` (0 is falsy and also falls back to 50). -/
def effLimit (limit? : Option Nat) : Nat :=
  match limit? with
  | some l => if l = 0 then 50 else l
  | none => 50
end GraphStore

namespace GraphStore
/-- `SQLiteGraphStore.findNodes`: filter by kind and case-insensitive
key/label substring, order by `(kind, key)`, truncate at the limit. -/
def findNodes (db : GraphDB) (kind? q? : Option String) (limit? : Option Nat) : List KGNode :=
  (sortByKindKey (db.nodes.filter (nodeMatches (optFilter kind?) (optFilter q?)))).take
    (effLimit limit?)
end GraphStore

namespace GraphStore
/-- Modelled from the spec: the MCP tool handler for `graph_find_nodes` is not
among the sources under review (only the `SQLiteGraphStore.findNodes` it
delegates to is); per the spec the "server enforces a hard maximum result
count regardless of requested limit". The hard maximum is the store's default
result count. -/
def FIND_NODES_MAX : Nat := 50
end GraphStore

namespace GraphStore
/-- Modelled from the spec: the tool handler caps the caller's requested limit
at the hard maximum before delegating to `findNodes`. -/
def graphFindNodesTool (db : GraphDB) (kind? q? : Option String) (limit : Nat) : List KGNode :=
  findNodes db kind? q? (some (min limit FIND_NODES_MAX))
end GraphStore

namespace GraphStore
/-- Traversal direction of `neighbors` (`"out" | "in" | "both"`; `inc` stands
for the `"in"` string, which is a Lean keyword). -/
inductive Direction where
  | out
  | inc
  | both
deriving DecidableEq
end GraphStore

namespace GraphStore
/-- Does the direction include outgoing edges? -/
def dirHasOut : Direction → Bool
  | .out => true
  | .both => true
  | .inc => false
end GraphStore

namespace GraphStore
/-- Does the direction include incoming edges? -/
def dirHasIn : Direction → Bool
  | .inc => true
  | .both => true
  | .out => false
end GraphStore

namespace GraphStore
/-- `SQLiteGraphStore.getNode`. -/
def getNode (db : GraphDB) (id : Nat) : Option KGNode :=
  db.nodes.find? fun n => n.id == id
end GraphStore

namespace GraphStore
/-- The optional `kind IN (...)` clause of the edge queries (`edgeKinds &&
edgeKinds.length > 0`: an empty list means no filter). -/
def edgeKindOk (kinds : List String) (e : KGEdge) : Bool :=
  kinds.isEmpty || kinds.contains e.kind
end GraphStore

namespace GraphStore
/-- `SELECT * FROM kg_edges WHERE src_id = ? [AND kind IN (...)]`. -/
def outEdges (db : GraphDB) (kinds : List String) (cur : Nat) : List KGEdge :=
  db.edges.filter fun e => e.src_id == cur && edgeKindOk kinds e
end GraphStore

namespace GraphStore
/-- `SELECT * FROM kg_edges WHERE dst_id = ? [AND kind IN (...)]`. -/
def inEdges (db : GraphDB) (kinds : List String) (cur : Nat) : List KGEdge :=
  db.edges.filter fun e => e.dst_id == cur && edgeKindOk kinds e
end GraphStore

namespace GraphStore
/-- The mutable traversal state of `neighbors`: the two visited sets, the two
result accumulators, and the ids pushed onto the queue for the next level. -/
structure Traversal where
  visitedNodes : List Nat
  visitedEdges : List Nat
  nodes : List KGNode
  edges : List KGEdge
  next : List Nat
deriving DecidableEq
end GraphStore

namespace GraphStore
/-- The per-edge body of both direction loops of `neighbors`: skip an already
visited edge; otherwise record it, and if the far endpoint (`other`, i.e.
`dst_id` for the out loop and `src_id` for the in loop) is unvisited, mark it
visited and — when the node row exists — push it onto results and queue. -/
def visitEdge (db : GraphDB) (other : KGEdge → Nat) (st : Traversal) (e : KGEdge) : Traversal :=
  if st.visitedEdges.contains e.id then st
  else
    let st1 : Traversal :=
      { st with visitedEdges := e.id :: st.visitedEdges, edges := st.edges ++ [e] }
    if st1.visitedNodes.contains (other e) then st1
    else
      let st2 : Traversal := { st1 with visitedNodes := other e :: st1.visitedNodes }
      match getNode db (other e) with
      | some nd => { st2 with nodes := st2.nodes ++ [nd], next := st2.next ++ [other e] }
      | none => st2
end GraphStore

namespace GraphStore
/-- Expansion of one dequeued node: the out-direction loop then the
in-direction loop, each guarded by the requested direction. -/
def processNode (db : GraphDB) (kinds : List String) (dir : Direction) (st : Traversal)
    (cur : Nat) : Traversal :=
  let st1 :=
    if dirHasOut dir then (outEdges db kinds cur).foldl (visitEdge db fun e => e.dst_id) st
    else st
  if dirHasIn dir then (inEdges db kinds cur).foldl (visitEdge db fun e => e.src_id) st1
  else st1
end GraphStore

namespace GraphStore
/-- One BFS level: the FIFO queue of `neighbors` holds `(nodeId, level)` pairs
with non-decreasing levels, so dequeuing is realized level-synchronously; the
ids discovered at this level accumulate in `next` (reset on entry). -/
def expandLevel (db : GraphDB) (kinds : List String) (dir : Direction) (st : Traversal)
    (frontier : List Nat) : Traversal :=
  frontier.foldl (processNode db kinds dir) { st with next := [] }
end GraphStore

namespace GraphStore
/-- The BFS loop of `neighbors`: nodes dequeued at `level ≥ depth` are not
expanded, so exactly `depth` levels run. -/
def runLevels (db : GraphDB) (kinds : List String) (dir : Direction) :
    Nat → Traversal → List Nat → Traversal
  | 0, st, _ => st
  | k + 1, st, frontier =>
    let st' := expandLevel db kinds dir st frontier
    runLevels db kinds dir k st' st'.next
end GraphStore

namespace GraphStore
/-- The state before the loop: the start id is marked visited and its node row
(if any) is pushed onto the results. -/
def initTraversal (db : GraphDB) (start : Nat) : Traversal :=
  { visitedNodes := [start], visitedEdges := [], nodes := (getNode db start).toList,
    edges := [], next := [] }
end GraphStore

namespace GraphStore
/-- The depth adjustment of `neighbors`: `if (depth < 1 || depth > 3) depth = 1`. -/
def effDepth (d : Int) : Nat :=
  if d < 1 ∨ 3 < d then 1 else d.toNat
end GraphStore

namespace GraphStore
/-- `SQLiteGraphStore.neighbors`. -/
def neighbors (db : GraphDB) (start : Nat) (kinds : List String) (dir : Direction)
    (depth : Int) : List KGNode × List KGEdge :=
  let st := runLevels db kinds dir (effDepth depth) (initTraversal db start) [start]
  (st.nodes, st.edges)
end GraphStore

namespace GraphStore
/-- A node-upsert input sharing `n`'s dedup key `(kind, key)` but carrying new
mutable fields. -/
def renode (n : NodeInput) (l2 : Option String) (s2 : String) (fp2 : Option String)
    (sl2 el2 : Option Nat) (m2 : String) : NodeInput :=
  { kind := n.kind, key := n.key, label := l2, source := s2, file_path := fp2,
    start_line := sl2, end_line := el2, meta := m2 }
end GraphStore

namespace GraphStore
/-- An edge-upsert input sharing `e`'s dedup triple `(kind, src_id, dst_id)`
but carrying new mutable fields. -/
def reedge (e : EdgeInput) (sl dl : Option String) (m : String) : EdgeInput :=
  { kind := e.kind, src_id := e.src_id, dst_id := e.dst_id, src_loc := sl, dst_loc := dl,
    meta := m }
end GraphStore

open GraphStore

/-- A one-node store used to instantiate the `findNodes` guarantees. -/
def findNodesExampleDb : GraphDB :=
  { nodes := [{ id := 1, kind := "class", key := "User", label := "User", source := "ast",
                file_path := none, start_line := none, end_line := none, meta := "" }],
    edges := [], nextNodeId := 2, nextEdgeId := 1 }

/-- The single node of `findNodesExampleDb`. -/
def findNodesExampleNode : KGNode :=
  { id := 1, kind := "class", key := "User", label := "User", source := "ast",
    file_path := none, start_line := none, end_line := none, meta := "" }

/-- A three-node chain 1 → 2 → 3 used for the traversal claims. -/
def bfsExampleDb : GraphDB :=
  { nodes := [{ id := 1, kind := "class", key := "A", label := "A", source := "ast",
                file_path := none, start_line := none, end_line := none, meta := "" },
              { id := 2, kind := "class", key := "B", label := "B", source := "ast",
                file_path := none, start_line := none, end_line := none, meta := "" },
              { id := 3, kind := "class", key := "C", label := "C", source := "ast",
                file_path := none, start_line := none, end_line := none, meta := "" }],
    edges := [{ id := 1, kind := "inherits", src_id := 1, dst_id := 2, src_loc := none,
                dst_loc := none, meta := "" },
              { id := 2, kind := "inherits", src_id := 2, dst_id := 3, src_loc := none,
                dst_loc := none, meta := "" }],
    nextNodeId := 4, nextEdgeId := 3 }

namespace GraphStore
/-- One traversal step as `neighbors` sees it: an edge of the store passing the
kind filter, crossed along a direction the request allows. -/
def Adj (db : GraphDB) (kinds : List String) (dir : Direction) (a b : Nat) : Prop :=
  ∃ e ∈ db.edges, edgeKindOk kinds e = true ∧
    ((dirHasOut dir = true ∧ e.src_id = a ∧ e.dst_id = b)
      ∨ (dirHasIn dir = true ∧ e.dst_id = a ∧ e.src_id = b))
end GraphStore

namespace GraphStore
/-- Breadth-first reachability: `ReachWithin db kinds dir k a i` holds when `i`
is reachable from `a` in at most `k` traversal steps. -/
def ReachWithin (db : GraphDB) (kinds : List String) (dir : Direction) :
    Nat → Nat → Nat → Prop
  | 0, a, i => i = a
  | k + 1, a, i => i = a ∨ ∃ m, Adj db kinds dir a m ∧ ReachWithin db kinds dir k m i
end GraphStore

namespace GraphStore
/-- Well-formedness the spec's contract guarantees for the store: edge row ids
are unique (SQL primary key) and both endpoints of every edge exist (callers
must create endpoints before referencing them). -/
def WFdb (db : GraphDB) : Prop :=
  ((db.edges.map fun e => e.id).Nodup)
    ∧ ∀ e ∈ db.edges, (∃ n ∈ db.nodes, n.id = e.src_id) ∧ (∃ n ∈ db.nodes, n.id = e.dst_id)
end GraphStore

namespace GraphStore
/-- Result nodes are recorded in the visited-node set. -/
def NodesIdsSub (st : Traversal) : Prop :=
  ∀ n ∈ st.nodes, n.id ∈ st.visitedNodes
end GraphStore

namespace GraphStore
/-- Result edges are recorded in the visited-edge set. -/
def EdgesIdsSub (st : Traversal) : Prop :=
  ∀ e ∈ st.edges, e.id ∈ st.visitedEdges
end GraphStore

namespace GraphStore
/-- Result node ids are pairwise distinct. -/
def NodesNodup (st : Traversal) : Prop :=
  (st.nodes.map fun n => n.id).Nodup
end GraphStore

namespace GraphStore
/-- Result edge ids are pairwise distinct. -/
def EdgesNodup (st : Traversal) : Prop :=
  (st.edges.map fun e => e.id).Nodup
end GraphStore

namespace GraphStore
/-- The bundle of dedup invariants maintained by the traversal. -/
def DedupInv (st : Traversal) : Prop :=
  NodesIdsSub st ∧ EdgesIdsSub st ∧ NodesNodup st ∧ EdgesNodup st
end GraphStore

namespace GraphStore
/-- A visited edge has both endpoints visited. -/
def EdgeVis (db : GraphDB) (st : Traversal) : Prop :=
  ∀ e ∈ db.edges, e.id ∈ st.visitedEdges →
    e.src_id ∈ st.visitedNodes ∧ e.dst_id ∈ st.visitedNodes
end GraphStore

namespace GraphStore
/-- Every visited id has a node row in the results. -/
def VisNodes (st : Traversal) : Prop :=
  ∀ v ∈ st.visitedNodes, ∃ nd ∈ st.nodes, nd.id = v
end GraphStore

namespace GraphStore
/-- All neighbours of `a` (along allowed edges) are already visited. -/
def Expanded (db : GraphDB) (kinds : List String) (dir : Direction) (st : Traversal)
    (a : Nat) : Prop :=
  ∀ b, Adj db kinds dir a b → b ∈ st.visitedNodes
end GraphStore

namespace GraphStore
/-- Every visited node is still queued or fully expanded. -/
def ExpInv (db : GraphDB) (kinds : List String) (dir : Direction) (st : Traversal)
    (frontier : List Nat) : Prop :=
  ∀ a ∈ st.visitedNodes, a ∈ frontier ∨ Expanded db kinds dir st a
end GraphStore

namespace GraphStore
/-- The invariant bundle carried through one direction loop: visited edges have
visited endpoints, visited ids have result rows, the dequeued node and all
queued ids stay visited, previously visited ids persist, and any newly visited
id has been queued. -/
def CBundle (db : GraphDB) (base : Traversal) (cur : Nat) (t : Traversal) : Prop :=
  EdgeVis db t ∧ VisNodes t ∧ cur ∈ t.visitedNodes
    ∧ (∀ x ∈ t.next, x ∈ t.visitedNodes)
    ∧ (∀ v ∈ base.visitedNodes, v ∈ t.visitedNodes)
    ∧ (∀ v ∈ t.visitedNodes, v ∈ base.visitedNodes ∨ v ∈ t.next)
end GraphStore

namespace StrOps
/-- JavaScript `s.startsWith(t)`. -/
def strStartsWith (s t : String) : Bool :=
  listStartsWith s.data t.data
end StrOps

namespace StrOps
/-- The characters the regex class `\s` matches in the schema sources. -/
def isWsChar (c : Char) : Bool :=
  c == ' ' || c == '\t' || c == '\n' || c == '\r'
end StrOps

namespace StrOps
/-- The regex class `\w`. -/
def isWordChar (c : Char) : Bool :=
  ('a' ≤ c && c ≤ 'z') || ('A' ≤ c && c ≤ 'Z') || ('0' ≤ c && c ≤ '9') || c == '_'
end StrOps

namespace StrOps
/-- The regex class `\d`. -/
def isDigitChar (c : Char) : Bool :=
  '0' ≤ c && c ≤ '9'
end StrOps

namespace StrOps
/-- Leftmost-match semantics of an unanchored regex: try the matcher at every
position, earliest success wins. -/
def scanFor {α : Type} (m : List Char → Option α) : List Char → Option α
  | [] => m []
  | c :: cs =>
    match m (c :: cs) with
    | some r => some r
    | none => scanFor m cs
end StrOps

namespace StrOps
/-- JavaScript `parseInt` on a non-empty digit string. -/
def natOfDigits (l : List Char) : Nat :=
  l.foldl (fun acc c => acc * 10 + (c.toNat - 48)) 0
end StrOps

namespace StrOps
/-- JavaScript `String.prototype.trim`. -/
def trimStr (s : String) : String :=
  String.mk (((s.data.dropWhile isWsChar).reverse.dropWhile isWsChar).reverse)
end StrOps

namespace StrOps
/-- JavaScript `s || dflt` for a string (empty strings are falsy). -/
def jsStrOr (s dflt : String) : String :=
  if s = "" then dflt else s
end StrOps

namespace StrOps
/-- JavaScript `x || null` for a nullable string (an empty string collapses to
null). -/
def jsOptNull (o : Option String) : Option String :=
  match o with
  | some "" => none
  | x => x
end StrOps

namespace SchemaParser
/-- A row of the parsed foreign-key list (`SchemaForeignKey`). -/
structure SchemaForeignKey where
  from_table : String
  from_column : String
  to_table : String
  to_column : String
  on_delete : Option String
  on_update : Option String
deriving DecidableEq
end SchemaParser

namespace SchemaParser
/-- A parsed column (`SchemaColumn`). -/
structure SchemaColumn where
  name : String
  type : String
  nullable : Bool
  default : Option String
  limit : Option Nat
  precision : Option Nat
  scale : Option Nat
deriving DecidableEq
end SchemaParser

namespace SchemaParser
/-- A parsed index (`SchemaIndex`; `whereClause` is the `where` field, which
is a Lean keyword). -/
structure SchemaIndex where
  name : String
  table : String
  columns : List String
  unique : Bool
  whereClause : Option String
deriving DecidableEq
end SchemaParser

namespace SchemaParser
/-- A parsed table (`SchemaTable`). -/
structure SchemaTable where
  name : String
  columns : List SchemaColumn
  indexes : List SchemaIndex
  foreign_keys : List SchemaForeignKey
  primary_key : Option String
deriving DecidableEq
end SchemaParser

namespace SchemaParser
/-- The result record of `parseContent`. -/
structure ParsedSchema where
  tables : List SchemaTable
  foreign_keys : List SchemaForeignKey
  version : Option String
deriving DecidableEq
end SchemaParser

namespace SchemaParser
/-- The trailing `(?:,\s*(.*))?$` of the line-anchored option regexes: either
the line ends here (the group is absent, `match[3] || ''` gives `""`), or a
comma and optional whitespace precede the captured options. -/
def matchOptionsToEnd (cs : List Char) : Option String :=
  match cs with
  | [] => some ""
  | ',' :: rest => some (String.mk (rest.dropWhile isWsChar))
  | _ => none
end SchemaParser

namespace SchemaParser
/-- The standard-column regex `t\.(\w+)\s+"([^"]+)"(?:,\s*(.*))?$` anchored at
the given position; yields (type, name, options). -/
def matchStandardColumn (cs : List Char) : Option (String × String × String) :=
  match cs with
  | 't' :: '.' :: rest =>
    let typeChars := rest.takeWhile isWordChar
    if typeChars.isEmpty then none
    else
      let rest1 := rest.dropWhile isWordChar
      if (rest1.takeWhile isWsChar).isEmpty then none
      else
        match rest1.dropWhile isWsChar with
        | '"' :: rest2 =>
          let nameChars := rest2.takeWhile fun c => !(c == '"')
          if nameChars.isEmpty then none
          else
            match rest2.dropWhile (fun c => !(c == '"')) with
            | '"' :: rest3 =>
              (matchOptionsToEnd rest3).map fun opts =>
                (String.mk typeChars, String.mk nameChars, opts)
            | _ => none
        | _ => none
  | _ => none
end SchemaParser

namespace SchemaParser
/-- The reference-shorthand regex
`t\.(references|belongs_to)\s+:(\w+)(?:,\s*(.*))?$` anchored at the given
position; yields (name, options). -/
def matchReferenceColumn (cs : List Char) : Option (String × String) :=
  match cs with
  | 't' :: '.' :: rest =>
    let kw : Option (List Char) :=
      if listStartsWith rest "references".data then some (rest.drop 10)
      else if listStartsWith rest "belongs_to".data then some (rest.drop 10)
      else none
    match kw with
    | none => none
    | some rest1 =>
      if (rest1.takeWhile isWsChar).isEmpty then none
      else
        match rest1.dropWhile isWsChar with
        | ':' :: rest2 =>
          let nameChars := rest2.takeWhile isWordChar
          if nameChars.isEmpty then none
          else
            (matchOptionsToEnd (rest2.dropWhile isWordChar)).map fun opts =>
              (String.mk nameChars, opts)
        | _ => none
  | _ => none
end SchemaParser

namespace SchemaParser
/-- The inline-index regex `t\.index\s+\[([^\]]+)\](?:,\s*(.*))?$` anchored at
the given position; yields (columnsStr, options). -/
def matchInlineIndex (cs : List Char) : Option (String × String) :=
  match cs with
  | 't' :: '.' :: 'i' :: 'n' :: 'd' :: 'e' :: 'x' :: rest =>
    if (rest.takeWhile isWsChar).isEmpty then none
    else
      match rest.dropWhile isWsChar with
      | '[' :: rest1 =>
        let colsChars := rest1.takeWhile fun c => !(c == ']')
        if colsChars.isEmpty then none
        else
          match rest1.dropWhile (fun c => !(c == ']')) with
          | ']' :: rest2 =>
            (matchOptionsToEnd rest2).map fun opts => (String.mk colsChars, opts)
          | _ => none
      | _ => none
  | _ => none
end SchemaParser

namespace SchemaParser
/-- The multi-column standalone-index regex
`add_index\s+"([^"]+)",\s+\[([^\]]+)\](?:,\s*(.*))?$`; yields
(table, columnsStr, options). -/
def matchAddIndexMulti (cs : List Char) : Option (String × String × String) :=
  if listStartsWith cs "add_index".data then
    let rest := cs.drop 9
    if (rest.takeWhile isWsChar).isEmpty then none
    else
      match rest.dropWhile isWsChar with
      | '"' :: r1 =>
        let tbl := r1.takeWhile fun c => !(c == '"')
        if tbl.isEmpty then none
        else
          match r1.dropWhile (fun c => !(c == '"')) with
          | '"' :: ',' :: r2 =>
            if (r2.takeWhile isWsChar).isEmpty then none
            else
              match r2.dropWhile isWsChar with
              | '[' :: r3 =>
                let colsS := r3.takeWhile fun c => !(c == ']')
                if colsS.isEmpty then none
                else
                  match r3.dropWhile (fun c => !(c == ']')) with
                  | ']' :: r4 =>
                    (matchOptionsToEnd r4).map fun o => (String.mk tbl, String.mk colsS, o)
                  | _ => none
              | _ => none
          | _ => none
      | _ => none
  else none
end SchemaParser

namespace SchemaParser
/-- The single-column standalone-index regex
`add_index\s+"([^"]+)",\s+"([^"]+)"(?:,\s*(.*))?$`; yields
(table, column, options). -/
def matchAddIndexSingle (cs : List Char) : Option (String × String × String) :=
  if listStartsWith cs "add_index".data then
    let rest := cs.drop 9
    if (rest.takeWhile isWsChar).isEmpty then none
    else
      match rest.dropWhile isWsChar with
      | '"' :: r1 =>
        let tbl := r1.takeWhile fun c => !(c == '"')
        if tbl.isEmpty then none
        else
          match r1.dropWhile (fun c => !(c == '"')) with
          | '"' :: ',' :: r2 =>
            if (r2.takeWhile isWsChar).isEmpty then none
            else
              match r2.dropWhile isWsChar with
              | '"' :: r3 =>
                let col := r3.takeWhile fun c => !(c == '"')
                if col.isEmpty then none
                else
                  match r3.dropWhile (fun c => !(c == '"')) with
                  | '"' :: r4 =>
                    (matchOptionsToEnd r4).map fun o => (String.mk tbl, String.mk col, o)
                  | _ => none
              | _ => none
          | _ => none
      | _ => none
  else none
end SchemaParser

namespace SchemaParser
/-- The foreign-key regex `add_foreign_key\s+"([^"]+)",\s+"([^"]+)"(?:,\s*(.*))?$`;
yields (from_table, to_table, options). -/
def matchAddForeignKey (cs : List Char) : Option (String × String × String) :=
  if listStartsWith cs "add_foreign_key".data then
    let rest := cs.drop 15
    if (rest.takeWhile isWsChar).isEmpty then none
    else
      match rest.dropWhile isWsChar with
      | '"' :: r1 =>
        let fromT := r1.takeWhile fun c => !(c == '"')
        if fromT.isEmpty then none
        else
          match r1.dropWhile (fun c => !(c == '"')) with
          | '"' :: ',' :: r2 =>
            if (r2.takeWhile isWsChar).isEmpty then none
            else
              match r2.dropWhile isWsChar with
              | '"' :: r3 =>
                let toT := r3.takeWhile fun c => !(c == '"')
                if toT.isEmpty then none
                else
                  match r3.dropWhile (fun c => !(c == '"')) with
                  | '"' :: r4 =>
                    (matchOptionsToEnd r4).map fun o => (String.mk fromT, String.mk toT, o)
                  | _ => none
              | _ => none
          | _ => none
      | _ => none
  else none
end SchemaParser

namespace SchemaParser
/-- An option sub-regex `key\s*"([^"]+)"` (used for `primary_key:`, `where:`,
`name:`, `column:`) over an options string. -/
def matchKeyQuoted (key : String) (opts : String) : Option String :=
  scanFor (fun cs =>
    if listStartsWith cs key.data then
      match (cs.drop key.data.length).dropWhile isWsChar with
      | '"' :: r =>
        let v := r.takeWhile fun c => !(c == '"')
        if v.isEmpty then none
        else
          match r.dropWhile (fun c => !(c == '"')) with
          | '"' :: _ => some (String.mk v)
          | _ => none
      | _ => none
    else none) opts.data
end SchemaParser

namespace SchemaParser
/-- An option sub-regex `key\s*(\d+)` (used for `limit:`, `precision:`,
`scale:`). -/
def matchKeyNat (key : String) (opts : String) : Option Nat :=
  scanFor (fun cs =>
    if listStartsWith cs key.data then
      let r := (cs.drop key.data.length).dropWhile isWsChar
      let ds := r.takeWhile isDigitChar
      if ds.isEmpty then none else some (natOfDigits ds)
    else none) opts.data
end SchemaParser

namespace SchemaParser
/-- An option sub-regex `key\s*:(\w+)` (used for `on_delete:`, `on_update:`). -/
def matchKeySymbol (key : String) (opts : String) : Option String :=
  scanFor (fun cs =>
    if listStartsWith cs key.data then
      match (cs.drop key.data.length).dropWhile isWsChar with
      | ':' :: r =>
        let v := r.takeWhile isWordChar
        if v.isEmpty then none else some (String.mk v)
      | _ => none
    else none) opts.data
end SchemaParser

namespace SchemaParser
/-- The `default:\s*([^,]+)` sub-regex followed by the source's `.trim()`. -/
def matchDefaultVal (opts : String) : Option String :=
  scanFor (fun cs =>
    if listStartsWith cs "default:".data then
      let r := (cs.drop 8).dropWhile isWsChar
      let v := r.takeWhile fun c => !(c == ',')
      if v.isEmpty then none else some (trimStr (String.mk v))
    else none) opts.data
end SchemaParser

namespace SchemaParser
/-- The lines of a multi-line string (the `$`-anchored `/gm` regexes of the
source match line by line). -/
def linesOf (s : String) : List String :=
  strSplitChar '\n' s
end SchemaParser

namespace SchemaParser
/-- The standard-column pass of `parseColumns` (schema-parser.ts lines
140-160) over the table body, one line at a time. -/
def standardColumnsOf (tableBody : String) : List SchemaColumn :=
  (linesOf tableBody).filterMap fun line =>
    (scanFor matchStandardColumn line.data).map fun m =>
      { name := m.2.1, type := m.1,
        nullable := !(strContainsSub m.2.2 "null: false"),
        default := matchDefaultVal m.2.2,
        limit := matchKeyNat "limit:" m.2.2,
        precision := matchKeyNat "precision:" m.2.2,
        scale := matchKeyNat "scale:" m.2.2 }
end SchemaParser

namespace SchemaParser
/-- The reference-shorthand matches of a table body: (name, options) pairs. -/
def referencesOf (tableBody : String) : List (String × String) :=
  (linesOf tableBody).filterMap fun line => scanFor matchReferenceColumn line.data
end SchemaParser

namespace SchemaParser
/-- The columns produced by the reference pass (schema-parser.ts lines
162-207): an `n_id` bigint for every match, plus an `n_type` string when the
options contain `polymorphic: true`. -/
def referencesColumns (ms : List (String × String)) : List SchemaColumn :=
  ms.flatMap fun m =>
    { name := m.1 ++ "_id", type := "bigint",
      nullable := !(strContainsSub m.2 "null: false"),
      default := none, limit := none, precision := none, scale := none } ::
    (if strContainsSub m.2 "polymorphic: true" then
      [{ name := m.1 ++ "_type", type := "string",
         nullable := !(strContainsSub m.2 "null: false"),
         default := none, limit := none, precision := none, scale := none }]
    else [])
end SchemaParser

namespace SchemaParser
/-- The foreign keys the reference pass pushes when the options contain
`foreign_key: true`: `to_table` is `pluralToSingular(name) + 's'`. -/
def referencesFks (tableName : String) (ms : List (String × String)) :
    List SchemaForeignKey :=
  ms.filterMap fun m =>
    if strContainsSub m.2 "foreign_key: true" then
      some { from_table := tableName, from_column := m.1 ++ "_id",
             to_table := pluralToSingular m.1 ++ "s", to_column := "id",
             on_delete := none, on_update := none }
    else none
end SchemaParser

namespace SchemaParser
/-- The `t.timestamps` shorthand (schema-parser.ts lines 209-221). -/
def timestampsColumns (tableBody : String) : List SchemaColumn :=
  if strContainsSub tableBody "t.timestamps" then
    [⟨"created_at", "datetime", false, none, none, none, none⟩,
     ⟨"updated_at", "datetime", false, none, none, none, none⟩]
  else []
end SchemaParser

namespace SchemaParser
/-- `SchemaParser.parseColumns` (schema-parser.ts lines 131-223): the columns
in source order (standard, then references, then timestamps) together with the
foreign keys the reference pass appends to the parser-level list. -/
def parseColumns (tableName : String) (tableBody : String) :
    List SchemaColumn × List SchemaForeignKey :=
  (standardColumnsOf tableBody
     ++ referencesColumns (referencesOf tableBody)
     ++ timestampsColumns tableBody,
   referencesFks tableName (referencesOf tableBody))
end SchemaParser

namespace SchemaParser
/-- `c.trim().replace(/[":]/g, '')` applied to each comma-separated piece of
an index column list. -/
def parseIndexColumns (columnsStr : String) : List String :=
  (strSplitChar ',' columnsStr).map fun c =>
    String.mk ((trimStr c).data.filter fun ch => !(ch == '"' || ch == ':'))
end SchemaParser

namespace SchemaParser
/-- `SchemaParser.generateIndexName`. -/
def generateIndexName (table : String) (columns : List String) : String :=
  "index_" ++ table ++ "_on_" ++ String.intercalate "_and_" columns
end SchemaParser

namespace SchemaParser
/-- `SchemaParser.parseInlineIndexes` (one `t.index [...]` per line). -/
def parseInlineIndexes (tableName : String) (tableBody : String) : List SchemaIndex :=
  (linesOf tableBody).filterMap fun line =>
    (scanFor matchInlineIndex line.data).map fun m =>
      let columns := parseIndexColumns m.1
      let uniq := strContainsSub m.2 "unique: true"
      let base : SchemaIndex :=
        { name := generateIndexName tableName columns, table := tableName,
          columns := columns, unique := uniq,
          whereClause := matchKeyQuoted "where:" m.2 }
      match matchKeyQuoted "name:" m.2 with
      | some n => { base with name := n }
      | none => base
end SchemaParser

namespace SchemaParser
/-- `Map.set`-style in-place update of the table list (absent tables are left
untouched, matching the source's existence check). -/
def updateTable (tables : List SchemaTable) (name : String)
    (f : SchemaTable → SchemaTable) : List SchemaTable :=
  tables.map fun t => if t.name == name then f t else t
end SchemaParser

namespace SchemaParser
/-- `SchemaParser.parseStandaloneIndexes`: the multi-column `add_index` pass
over the whole content, then the single-column pass. -/
def parseStandaloneIndexes (content : String) (tables : List SchemaTable) :
    List SchemaTable :=
  let afterMulti := (linesOf content).foldl (fun ts line =>
    match scanFor matchAddIndexMulti line.data with
    | some m =>
      let columns := parseIndexColumns m.2.1
      let uniq := strContainsSub m.2.2 "unique: true"
      let idx0 : SchemaIndex :=
        { name := generateIndexName m.1 columns, table := m.1,
          columns := columns, unique := uniq,
          whereClause := matchKeyQuoted "where:" m.2.2 }
      let idx := match matchKeyQuoted "name:" m.2.2 with
        | some n => { idx0 with name := n }
        | none => idx0
      updateTable ts m.1 fun t => { t with indexes := t.indexes ++ [idx] }
    | none => ts) tables
  (linesOf content).foldl (fun ts line =>
    match scanFor matchAddIndexSingle line.data with
    | some m =>
      let uniq := strContainsSub m.2.2 "unique: true"
      let idx0 : SchemaIndex :=
        { name := generateIndexName m.1 [m.2.1], table := m.1,
          columns := [m.2.1], unique := uniq, whereClause := none }
      let idx := match matchKeyQuoted "name:" m.2.2 with
        | some n => { idx0 with name := n }
        | none => idx0
      updateTable ts m.1 fun t => { t with indexes := t.indexes ++ [idx] }
    | none => ts) afterMulti
end SchemaParser

namespace SchemaParser
/-- `SchemaParser.parseForeignKeys`: one `add_foreign_key` per line;
`from_column` defaults to `singularize(to_table) + '_id'`, `to_column` to
`id`. -/
def parseForeignKeysS (content : String) : List SchemaForeignKey :=
  (linesOf content).filterMap fun line =>
    (scanFor matchAddForeignKey line.data).map fun m =>
      { from_table := m.1,
        from_column := (matchKeyQuoted "column:" m.2.2).getD (singularize m.2.1 ++ "_id"),
        to_table := m.2.1,
        to_column := (matchKeyQuoted "primary_key:" m.2.2).getD "id",
        on_delete := matchKeySymbol "on_delete:" m.2.2,
        on_update := matchKeySymbol "on_update:" m.2.2 }
end SchemaParser

namespace SchemaParser
/-- The version regex
`ActiveRecord::Schema(?:\[[\d.]+\])?\.define\(version:\s*(\d+)\)` anchored at
a position. -/
def matchVersionAt (cs : List Char) : Option String :=
  if listStartsWith cs "ActiveRecord::Schema".data then
    let rest := cs.drop 20
    let afterBracket : Option (List Char) :=
      match rest with
      | '[' :: r =>
        let ds := r.takeWhile fun c => isDigitChar c || c == '.'
        if ds.isEmpty then none
        else
          match r.dropWhile (fun c => isDigitChar c || c == '.') with
          | ']' :: r2 => some r2
          | _ => none
      | _ => some rest
    match afterBracket with
    | none => none
    | some r =>
      if listStartsWith r ".define(version:".data then
        let r2 := (r.drop 16).dropWhile isWsChar
        let ds := r2.takeWhile isDigitChar
        if ds.isEmpty then none
        else
          match r2.dropWhile isDigitChar with
          | ')' :: _ => some (String.mk ds)
          | _ => none
      else none
  else none
end SchemaParser

namespace SchemaParser
/-- `SchemaParser.extractVersion`. -/
def extractVersion (content : String) : Option String :=
  scanFor matchVersionAt content.data
end SchemaParser

namespace SchemaParser
/-- `\s+do\s+\|t\|` anchored at a position; returns the remainder. -/
def parseDoT (cs : List Char) : Option (List Char) :=
  if (cs.takeWhile isWsChar).isEmpty then none
  else
    match cs.dropWhile isWsChar with
    | 'd' :: 'o' :: r =>
      if (r.takeWhile isWsChar).isEmpty then none
      else
        match r.dropWhile isWsChar with
        | '|' :: 't' :: '|' :: r2 => some r2
        | _ => none
    | _ => none
end SchemaParser

namespace SchemaParser
/-- The greedy `([^)]*)` capture followed by `\s+do\s+\|t\|`: the LAST
position inside the close-paren-free region at which the do-block header
parses wins, exactly as a greedy regex group backtracks. -/
def findLastDoT : List Char → Option (List Char × List Char)
  | [] => none
  | c :: cs =>
    if c == ')' then none
    else
      match findLastDoT cs with
      | some r => some (c :: r.1, r.2)
      | none =>
        match parseDoT (c :: cs) with
        | some rest => some ([], rest)
        | none => none
end SchemaParser

namespace SchemaParser
/-- The lazy body capture `([\s\S]*?)\n\s*end`: scan forward to the first
newline followed by optional whitespace and `end`; returns the body and the
remainder after `end`. -/
def findBodyEnd : List Char → List Char → Option (List Char × List Char)
  | [], _ => none
  | c :: cs, acc =>
    if c == '\n' then
      let after := cs.dropWhile isWsChar
      if listStartsWith after "end".data then some (acc.reverse, after.drop 3)
      else findBodyEnd cs (c :: acc)
    else findBodyEnd cs (c :: acc)
end SchemaParser

namespace SchemaParser
/-- The `create_table "name"(?:,\s*([^)]*))?\s+do\s+\|t\|([\s\S]*?)\n\s*end`
block regex anchored at a position; yields ((name, tableOptions, body),
remainder after the match). -/
def matchCreateTableAt (cs : List Char) :
    Option ((String × String × String) × List Char) :=
  if listStartsWith cs "create_table".data then
    let rest := cs.drop 12
    if (rest.takeWhile isWsChar).isEmpty then none
    else
      match rest.dropWhile isWsChar with
      | '"' :: r1 =>
        let nm := r1.takeWhile fun c => !(c == '"')
        if nm.isEmpty then none
        else
          match r1.dropWhile (fun c => !(c == '"')) with
          | '"' :: r2 =>
            let hdr : Option (String × List Char) :=
              match r2 with
              | ',' :: r3 =>
                match findLastDoT (r3.dropWhile isWsChar) with
                | some opts => some (String.mk opts.1, opts.2)
                | none => none
              | _ =>
                match parseDoT r2 with
                | some rest5 => some ("", rest5)
                | none => none
            match hdr with
            | none => none
            | some hd =>
              match findBodyEnd hd.2 [] with
              | some body =>
                some ((String.mk nm, hd.1, String.mk body.1), body.2)
              | none => none
          | _ => none
      | _ => none
  else none
end SchemaParser

namespace SchemaParser
/-- All `create_table ... do |t| ... end` blocks of the content in order; the
fuel (one more than the content length) bounds the number of scan steps and is
never exhausted on real input, since every step consumes at least one
character. -/
def parseBlocksAux : Nat → List Char → List (String × String × String)
  | 0, _ => []
  | fuel + 1, cs =>
    match cs with
    | [] => []
    | _ :: cs' =>
      match matchCreateTableAt cs with
      | some blk => blk.1 :: parseBlocksAux fuel blk.2
      | none => parseBlocksAux fuel cs'
end SchemaParser

namespace SchemaParser
/-- `Map.set` on the table list: replace in place, else append. -/
def setTable (tables : List SchemaTable) (t : SchemaTable) : List SchemaTable :=
  if tables.any (fun x => x.name == t.name) then
    tables.map fun x => if x.name == t.name then t else x
  else tables ++ [t]
end SchemaParser

namespace SchemaParser
/-- The table-level primary-key logic of `parseContent` (lines 99-107):
an explicit `primary_key: "..."` option wins, `id: false` yields none, and the
default is `id`. -/
def tablePrimaryKey (tableOptions : String) : Option String :=
  match matchKeyQuoted "primary_key:" tableOptions with
  | some pk => some pk
  | none => if strContainsSub tableOptions "id: false" then none else some "id"
end SchemaParser

namespace SchemaParser
/-- `SchemaParser.parseContent` (schema-parser.ts lines 68-129) as a state
transformer on the instance-level `this.version`: `this.tables` and
`this.foreignKeys` are cleared on entry, but `this.version` is NOT — when the
content carries no version declaration, the value left by an earlier parse on
the same instance is reported. Returns the result record and the new
`this.version`. -/
def parseContentS (priorVersion : Option String) (content : String) :
    ParsedSchema × Option String :=
  let version := match extractVersion content with
    | some v => some v
    | none => priorVersion
  let blocks := parseBlocksAux (content.data.length + 1) content.data
  let step := fun (acc : List SchemaTable × List SchemaForeignKey)
      (blk : String × String × String) =>
    let cf := parseColumns blk.1 blk.2.2
    let tbl : SchemaTable :=
      { name := blk.1, columns := cf.1,
        indexes := parseInlineIndexes blk.1 blk.2.2, foreign_keys := [],
        primary_key := tablePrimaryKey blk.2.1 }
    (setTable acc.1 tbl, acc.2 ++ cf.2)
  let acc := blocks.foldl step ([], [])
  ({ tables := parseStandaloneIndexes content acc.1,
     foreign_keys := acc.2 ++ parseForeignKeysS content,
     version := version }, version)
end SchemaParser

namespace Indexer
/-- A row of the `files` table (`FileRecord`); `last_indexed` is modelled as
an optional timestamp in milliseconds. -/
structure FileRecord where
  id : Nat
  path : String
  hash : String
  last_indexed : Option Int
  file_type : String
  line_count : Nat
deriving DecidableEq
end Indexer

namespace Indexer
/-- A row of the `symbols` table (`SymbolRecord`), restricted to the columns
the `INSERT INTO symbols` statement writes — the `references` and `metadata`
values the indexer passes are dropped by that statement. -/
structure SymbolRecord where
  id : Nat
  file_id : Nat
  name : String
  type : String
  parent_symbol : Option String
  start_line : Nat
  end_line : Nat
  signature : Option String
  visibility : String
  documentation : Option String
deriving DecidableEq
end Indexer

namespace Indexer
/-- The SQLite state the indexer touches: the two tables and their
autoincrement counters. -/
structure IndexDb where
  files : List FileRecord
  symbols : List SymbolRecord
  nextFileId : Nat
  nextSymbolId : Nat
deriving DecidableEq
end Indexer

namespace Indexer
/-- The path munge of `IndexDatabase.getFileByPath`:
`filePath.includes('/') && !filePath.startsWith('/') ? filePath :
filePath.replace(/^.*?\//, '')`. -/
def stripThroughFirstSlash : List Char → Option (List Char)
  | [] => none
  | c :: cs => if c == '/' then some cs else stripThroughFirstSlash cs
end Indexer

namespace Indexer
/-- JavaScript `s.replace(/^.*?\//, '')`: drop everything up to and including
the first slash; no slash, no change. -/
def replaceLeadingPath (s : String) : String :=
  match stripThroughFirstSlash s.data with
  | some rest => String.mk rest
  | none => s
end Indexer

namespace Indexer
def mungePath (filePath : String) : String :=
  if strContainsSub filePath "/" && !(strStartsWith filePath "/") then filePath
  else replaceLeadingPath filePath
end Indexer

namespace Indexer
/-- `IndexDatabase.getFileByPath`. -/
def getFileByPath (db : IndexDb) (filePath : String) : Option FileRecord :=
  db.files.find? fun f => f.path == mungePath filePath
end Indexer

namespace Indexer
/-- `IndexDatabase.upsertFile` (`INSERT ... ON CONFLICT(path) DO UPDATE ...
RETURNING id`). -/
def upsertFileDb (db : IndexDb) (path hash : String) (last_indexed : Option Int)
    (file_type : String) (line_count : Nat) : IndexDb × Nat :=
  match db.files.find? fun f => f.path == path with
  | some f =>
    ({ db with
       files := db.files.map fun x =>
         if x.path == path then
           { x with
             hash := hash, last_indexed := last_indexed,
             file_type := file_type, line_count := line_count }
         else x }, f.id)
  | none =>
    ({ db with
       files := db.files ++ [⟨db.nextFileId, path, hash, last_indexed, file_type, line_count⟩],
       nextFileId := db.nextFileId + 1 }, db.nextFileId)
end Indexer

namespace Indexer
/-- The column values `insertSymbol` is called with (sans `file_id`). -/
structure SymbolInput where
  name : String
  type : String
  parent_symbol : Option String
  start_line : Nat
  end_line : Nat
  signature : Option String
  visibility : String
  documentation : Option String
deriving DecidableEq
end Indexer

namespace Indexer
/-- `IndexDatabase.insertSymbol`: a plain `INSERT` returning the new rowid. -/
def insertSymbolDb (db : IndexDb) (fileId : Nat) (s : SymbolInput) : IndexDb × Nat :=
  ({ db with
     symbols := db.symbols ++
       [⟨db.nextSymbolId, fileId, s.name, s.type, s.parent_symbol, s.start_line,
         s.end_line, s.signature, s.visibility, s.documentation⟩],
     nextSymbolId := db.nextSymbolId + 1 }, db.nextSymbolId)
end Indexer

namespace Indexer
/-- `IndexDatabase.deleteSymbolsForFile` (`DELETE FROM symbols WHERE
file_id = ?`). -/
def deleteSymbolsForFileDb (db : IndexDb) (fileId : Nat) : IndexDb :=
  { db with symbols := db.symbols.filter fun s => !(s.file_id == fileId) }
end Indexer

namespace Indexer
/-- The rows of the `symbols` table belonging to one file. -/
def symbolsForFile (db : IndexDb) (fileId : Nat) : List SymbolRecord :=
  db.symbols.filter fun s => s.file_id == fileId
end Indexer

namespace Indexer
/-- A symbol as produced by the parser (`RubyParseResult.symbols`), with the
fields the persistence loop reads. -/
structure ParsedSymbol where
  name : String
  type : String
  parent : Option String
  start_line : Nat
  end_line : Nat
  signature : Option String
  visibility : String
  documentation : Option String
deriving DecidableEq
end Indexer

namespace Indexer
/-- A parsed association; only its name reaches a `symbols` column. -/
structure ParsedAssoc where
  name : String
deriving DecidableEq
end Indexer

namespace Indexer
/-- The skip logic at the top of the current `CodeIndexer.indexFile`
(part_005 lines 152-168): true when the file is (re)parsed and persisted.
`mtimeMs` is `stats.mtime.getTime()`. -/
def shouldParse (useNativeParser : Bool) (existingFile : Option FileRecord)
    (hash : String) (mtimeMs : Int) : Bool :=
  match existingFile with
  | some f =>
    if f.hash = hash ∧ useNativeParser = false then false
    else
      match f.last_indexed with
      | some lastIndexedTime =>
        if mtimeMs < lastIndexedTime ∧ f.hash = hash then false else true
      | none => true
  | none => true
end Indexer

namespace Indexer
/-- The change gate of `CodeIndexer.incrementalReindex` (part_005 lines
391-394): `indexFile` is invoked only for a file that is new, has no
last-indexed time, or whose mtime is strictly newer than it. -/
def incrementalGate (existingFile : Option FileRecord) (mtimeMs : Int) : Bool :=
  match existingFile with
  | none => true
  | some f =>
    match f.last_indexed with
    | none => true
    | some lastIndexed => if lastIndexed < mtimeMs then true else false
end Indexer

namespace Indexer
/-- An incremental run re-derives a file iff the gate lets `indexFile` run
AND `indexFile` itself does not skip it. -/
def incrementalRederives (useNative : Bool) (existing : Option FileRecord)
    (hash : String) (mtimeMs : Int) : Bool :=
  incrementalGate existing mtimeMs && shouldParse useNative existing hash mtimeMs
end Indexer

namespace Indexer
/-- The persistence block of the current `CodeIndexer.indexFile` (part_005
lines 186-232): upsert the file row, then append one symbol row per parsed
symbol and per association. No previous rows are deleted and no transaction
is opened. -/
def indexFilePersist (db : IndexDb) (relativePath hash fileType : String)
    (lineCount : Nat) (now : Int) (symbols : List ParsedSymbol)
    (associations : List ParsedAssoc) : IndexDb :=
  let up := upsertFileDb db relativePath hash (some now) fileType lineCount
  let db2 := symbols.foldl (fun d s =>
    (insertSymbolDb d up.2
      ⟨s.name, s.type, jsOptNull s.parent, s.start_line, s.end_line,
        s.signature, jsStrOr s.visibility "public", s.documentation⟩).1) up.1
  associations.foldl (fun d a =>
    (insertSymbolDb d up.2
      ⟨a.name, "association", none, 0, 0, none, "public", none⟩).1) db2
end Indexer

namespace Indexer
/-- The current `CodeIndexer.indexFile` as a state transformer: the skip
checks, then — when parsing goes ahead — the persistence block. -/
def indexFileStep (useNative : Bool) (db : IndexDb) (relativePath hash fileType : String)
    (lineCount : Nat) (now mtimeMs : Int) (symbols : List ParsedSymbol)
    (associations : List ParsedAssoc) : IndexDb :=
  if shouldParse useNative (getFileByPath db relativePath) hash mtimeMs then
    indexFilePersist db relativePath hash fileType lineCount now symbols associations
  else db
end Indexer

namespace Indexer
/-- The persistence block of the repository's other `CodeIndexer.indexFile`
(part_006 lines 133-170): upsert the file row, DELETE the file's old symbol
rows, insert the new ones, all between `beginTransaction` and `commit`. -/
def indexFilePersistTxn (db : IndexDb) (path hash fileType : String)
    (lineCount : Nat) (now : Int) (symbols : List ParsedSymbol) : IndexDb :=
  let up := upsertFileDb db path hash (some now) fileType lineCount
  let db2 := deleteSymbolsForFileDb up.1 up.2
  symbols.foldl (fun d s =>
    (insertSymbolDb d up.2
      ⟨s.name, s.type, jsOptNull s.parent, s.start_line, s.end_line,
        s.signature, jsStrOr s.visibility "public", s.documentation⟩).1) db2
end Indexer

/-- Splitting a disjunctive condition into two nested conditionals. -/
theorem if_or_split {α : Type} (a b : Bool) (x y : α) :
    (if a || b then x else y) = (if a then x else if b then x else y) := by
  cases a <;> cases b <;> simp

/-- The mapper's `singularize` implements exactly the spec's precedence list:
the only syntactic difference is that the source splits the drop-2 rule for
`ses|xes|zes` and `ches|shes` over two `else if` branches. -/
theorem mapper_singularize_follows_spec :
    ∀ w, RailsAssociationMapper.singularize w = RailsAssociationMapper.singularizeSpec w := by
  intro w
  unfold RailsAssociationMapper.singularize RailsAssociationMapper.singularizeSpec
  conv_rhs =>
    rw [Bool.or_assoc (strEndsWith w "ses" || strEndsWith w "xes" || strEndsWith w "zes")
      (strEndsWith w "ches") (strEndsWith w "shes")]
    rw [if_or_split (strEndsWith w "ses" || strEndsWith w "xes" || strEndsWith w "zes")
      (strEndsWith w "ches" || strEndsWith w "shes")]

/-- C7: the association mapper's `singularize` applies exactly the spec's rules
in the spec's precedence order, and together with `pluralize` reproduces the
anchor values `singularize "companies" = "company"`, `singularize "boxes" =
"box"`, `singularize "leaves" = "leaf"`, `pluralize "category" = "categories"`,
and `pluralize (singularize "address") = "addresses"`. -/
theorem C7_singularize_pluralize_exact :
    (∀ w, RailsAssociationMapper.singularize w = RailsAssociationMapper.singularizeSpec w)
    ∧ RailsAssociationMapper.singularize "companies" = "company"
    ∧ RailsAssociationMapper.singularize "boxes" = "box"
    ∧ RailsAssociationMapper.singularize "leaves" = "leaf"
    ∧ RailsAssociationMapper.pluralize "category" = "categories"
    ∧ RailsAssociationMapper.pluralize (RailsAssociationMapper.singularize "address")
        = "addresses" := by
  exact ⟨mapper_singularize_follows_spec, by decide, by decide, by decide, by decide, by decide⟩

/-- C8 counterexample: the graph builder's table→model transform does not equal
camelizing the association mapper's `singularize`: on `"images"` the builder
produces `"Imag"` (its inline rule drops a bare `es`) while the mapper
singularizes to `"image"`, camelized `"Image"`. -/
theorem C8_counterexample :
    GraphBuilder.tableNameToModelName "images" ≠
      RailsAssociationMapper.camelize (RailsAssociationMapper.singularize "images") := by
  decide

/-- C8 amended: the graph builder's table→model transform equals camelizing the
SCHEMA PARSER's `singularize` of the table name — the builder shares its
irregular singularization with the schema parser, not with the association
mapper (whose richer rule set diverges on words such as `"images"`). -/
theorem C8_amended :
    ∀ tn, GraphBuilder.tableNameToModelName tn =
      RailsAssociationMapper.camelize (SchemaParser.singularize tn) := by
  intro tn
  rfl

namespace GraphStore
/-- After any `upsertNode`, a row with the upsert's `(kind, key)` pair exists. -/
theorem conflict_exists_after_upsertNode (db : GraphDB) (n : NodeInput) :
    ∃ x ∈ (upsertNode db n).1.nodes, nodeConflict n x = true := by
  rcases hf : db.nodes.find? (nodeConflict n) with _ | m
  · simp only [upsertNode, hf]
    refine ⟨_, List.mem_append_right _ (List.mem_singleton_self _), ?_⟩
    simp [nodeConflict]
  · have hm : m ∈ db.nodes := List.mem_of_find?_eq_some hf
    have hc : nodeConflict n m = true := List.find?_some hf
    refine ⟨overwriteNode n m, ?_, ?_⟩
    · simp only [upsertNode, hf]
      exact List.mem_map.mpr ⟨m, hm, by simp [hc]⟩
    · simpa [nodeConflict, overwriteNode] using hc
end GraphStore

namespace GraphStore
/-- After any `upsertEdge`, a row with the upsert's `(kind, src, dst)` triple exists. -/
theorem conflict_exists_after_upsertEdge (db : GraphDB) (e : EdgeInput) :
    ∃ x ∈ (upsertEdge db e).1.edges, edgeConflict e x = true := by
  rcases hf : db.edges.find? (edgeConflict e) with _ | m
  · simp only [upsertEdge, hf]
    refine ⟨_, List.mem_append_right _ (List.mem_singleton_self _), ?_⟩
    simp [edgeConflict]
  · have hm : m ∈ db.edges := List.mem_of_find?_eq_some hf
    have hc : edgeConflict e m = true := List.find?_some hf
    refine ⟨overwriteEdge e m, ?_, ?_⟩
    · simp only [upsertEdge, hf]
      exact List.mem_map.mpr ⟨m, hm, by simp [hc]⟩
    · simpa [edgeConflict, overwriteEdge] using hc
end GraphStore

namespace GraphStore
/-- A second `upsertNode` whose input shares the first one's dedup key takes
the conflict branch: the node table is just rewritten in place. -/
theorem upsertNode_conflict_step (db : GraphDB) (n n' : NodeInput)
    (hk : n'.kind = n.kind) (hkey : n'.key = n.key) :
    (upsertNode (upsertNode db n).1 n').1.nodes
      = (upsertNode db n).1.nodes.map fun x =>
          if nodeConflict n' x then overwriteNode n' x else x := by
  obtain ⟨x, hx, hcx⟩ := conflict_exists_after_upsertNode db n
  have hcx' : nodeConflict n' x = true := by
    simp [nodeConflict, hk, hkey] at hcx ⊢
    exact hcx
  generalize hD : (upsertNode db n).1 = D at hx ⊢
  rcases h2 : D.nodes.find? (nodeConflict n') with _ | m2
  · rw [List.find?_eq_none] at h2
    exact absurd hcx' (by simpa using h2 x hx)
  · simp [upsertNode, h2]
end GraphStore

namespace GraphStore
/-- A second `upsertEdge` whose input shares the first one's dedup triple takes
the conflict branch. -/
theorem upsertEdge_conflict_step (db : GraphDB) (e e' : EdgeInput)
    (hk : e'.kind = e.kind) (hs : e'.src_id = e.src_id) (hd : e'.dst_id = e.dst_id) :
    (upsertEdge (upsertEdge db e).1 e').1.edges
      = (upsertEdge db e).1.edges.map fun x =>
          if edgeConflict e' x then overwriteEdge e' x else x := by
  obtain ⟨x, hx, hcx⟩ := conflict_exists_after_upsertEdge db e
  have hcx' : edgeConflict e' x = true := by
    simp [edgeConflict, hk, hs, hd] at hcx ⊢
    exact hcx
  generalize hD : (upsertEdge db e).1 = D at hx ⊢
  rcases h2 : D.edges.find? (edgeConflict e') with _ | m2
  · rw [List.find?_eq_none] at h2
    exact absurd hcx' (by simpa using h2 x hx)
  · simp [upsertEdge, h2]
end GraphStore

/-- C5: a repeated `upsertNode` with the same `(kind, key)` pair never grows
the node table — it rewrites the table in place, overwriting the conflicting
row's label, source, file anchor and metadata with the new values
(`overwriteNode`); likewise a repeated `upsertEdge` with the same
`(kind, src_id, dst_id)` triple never grows the edge table and overwrites the
conflicting row's locations and metadata (`overwriteEdge`). -/
theorem C5_upsert_dedup_overwrite :
    ∀ (db : GraphDB) (n : NodeInput) (l2 : Option String) (s2 : String) (fp2 : Option String)
      (sl2 el2 : Option Nat) (m2 : String) (edb : GraphDB) (e : EdgeInput)
      (sl dl : Option String) (em : String),
      ((upsertNode (upsertNode db n).1 (renode n l2 s2 fp2 sl2 el2 m2)).1.nodes
          = (upsertNode db n).1.nodes.map fun x =>
              if nodeConflict (renode n l2 s2 fp2 sl2 el2 m2) x then
                overwriteNode (renode n l2 s2 fp2 sl2 el2 m2) x
              else x)
      ∧ ((upsertNode (upsertNode db n).1 (renode n l2 s2 fp2 sl2 el2 m2)).1.nodes.length
          = (upsertNode db n).1.nodes.length)
      ∧ ((upsertEdge (upsertEdge edb e).1 (reedge e sl dl em)).1.edges
          = (upsertEdge edb e).1.edges.map fun x =>
              if edgeConflict (reedge e sl dl em) x then overwriteEdge (reedge e sl dl em) x
              else x)
      ∧ ((upsertEdge (upsertEdge edb e).1 (reedge e sl dl em)).1.edges.length
          = (upsertEdge edb e).1.edges.length) := by
  intro db n l2 s2 fp2 sl2 el2 m2 edb e sl dl em
  have hn := upsertNode_conflict_step db n (renode n l2 s2 fp2 sl2 el2 m2) rfl rfl
  have he := upsertEdge_conflict_step edb e (reedge e sl dl em) rfl rfl rfl
  exact ⟨hn, by rw [hn, List.length_map], he, by rw [he, List.length_map]⟩

namespace GraphStore
/-- Membership in an insertion step of the `ORDER BY` sort. -/
theorem mem_insertByKindKey {x y : KGNode} :
    ∀ {l : List KGNode}, x ∈ insertByKindKey y l → x = y ∨ x ∈ l := by
  intro l
  induction l with
  | nil =>
    intro h
    unfold insertByKindKey at h
    rw [List.mem_singleton] at h
    exact Or.inl h
  | cons z zs ih =>
    intro h
    unfold insertByKindKey at h
    by_cases hle : nodeLe y z = true
    · rw [if_pos hle, List.mem_cons] at h
      rcases h with h | h
      · exact Or.inl h
      · exact Or.inr h
    · rw [if_neg hle, List.mem_cons] at h
      rcases h with h | h
      · exact Or.inr (List.mem_cons.mpr (Or.inl h))
      · rcases ih h with h' | h'
        · exact Or.inl h'
        · exact Or.inr (List.mem_cons.mpr (Or.inr h'))
end GraphStore

namespace GraphStore
/-- Membership is preserved by the `ORDER BY` sort. -/
theorem mem_sortByKindKey {x : KGNode} :
    ∀ {l : List KGNode}, x ∈ sortByKindKey l → x ∈ l := by
  intro l
  induction l with
  | nil =>
    intro h
    simp [sortByKindKey] at h
  | cons z zs ih =>
    intro h
    unfold sortByKindKey at h
    rcases mem_insertByKindKey h with h' | h'
    · exact List.mem_cons.mpr (Or.inl h')
    · exact List.mem_cons.mpr (Or.inr (ih h'))
end GraphStore

namespace GraphStore
/-- The empty pattern is a sublist of everything. -/
theorem listContainsSub_nil (l : List Char) : listContainsSub l [] = true := by
  cases l <;> simp [listContainsSub, listStartsWith]
end GraphStore

namespace GraphStore
/-- Every row returned by `findNodes` satisfies the assembled `WHERE` clause. -/
theorem findNodes_mem_matches {db : GraphDB} {k q : Option String} {lim : Option Nat}
    {n : KGNode} (h : n ∈ findNodes db k q lim) :
    nodeMatches (optFilter k) (optFilter q) n = true := by
  unfold findNodes at h
  exact (List.mem_filter.mp (mem_sortByKindKey (List.mem_of_mem_take h))).2
end GraphStore

/-- C6: `findNodes` matches the substring filter case-insensitively (ASCII, as
SQLite's `LIKE`) against node key and label, honours a non-empty kind filter,
and the `graph_find_nodes` tool (modelled from the spec, which promises a
server-enforced hard maximum) returns at most `FIND_NODES_MAX` rows no matter
how large the requested limit is. -/
theorem C6_findNodes_filter_and_cap :
    (∀ (db : GraphDB) (k : Option String) (q : String) (lim : Option Nat) (n : KGNode),
        n ∈ findNodes db k (some q) lim →
        (likeContains n.key q || likeContains n.label q) = true)
    ∧ (∀ (db : GraphDB) (kk : String) (q : Option String) (lim : Option Nat) (n : KGNode),
        kk ≠ "" → n ∈ findNodes db (some kk) q lim → n.kind = kk)
    ∧ (∀ (db : GraphDB) (k q : Option String) (lim : Nat),
        (graphFindNodesTool db k q lim).length ≤ FIND_NODES_MAX) := by
  refine ⟨?_, ?_, ?_⟩
  · intro db k q lim n h
    have hm := findNodes_mem_matches h
    by_cases hq : q = ""
    · subst hq
      simp [likeContains, strContainsSub, strAsciiLower, listContainsSub_nil]
    · unfold nodeMatches at hm
      rw [Bool.and_eq_true] at hm
      have h2 := hm.2
      simp only [optFilter, if_neg hq] at h2
      exact h2
  · intro db kk q lim n hkk h
    have hm := findNodes_mem_matches h
    unfold nodeMatches at hm
    rw [Bool.and_eq_true] at hm
    have h1 := hm.1
    simp only [optFilter, if_neg hkk] at h1
    exact beq_iff_eq.mp h1
  · intro db k q lim
    unfold graphFindNodesTool findNodes
    rw [List.length_take]
    refine le_trans (Nat.min_le_left _ _) ?_
    simp only [effLimit, FIND_NODES_MAX]
    by_cases h0 : min lim 50 = 0
    · simp [h0]
    · simp only [if_neg h0]
      exact Nat.min_le_right _ _

/-- Witness for C6 at a concrete store, membership and non-emptiness discharged
by evaluation: the lower-cased filter `"use"` matches the key `"User"`. -/
theorem C6_witness :
    (likeContains findNodesExampleNode.key "use"
      || likeContains findNodesExampleNode.label "use") = true
    ∧ findNodesExampleNode.kind = "class" := by
  refine ⟨C6_findNodes_filter_and_cap.1 findNodesExampleDb (some "class") "use" (some 10)
      findNodesExampleNode ?_,
    C6_findNodes_filter_and_cap.2.1 findNodesExampleDb "class" (some "use") (some 10)
      findNodesExampleNode ?_ ?_⟩
  · decide
  · decide
  · decide

/-- C3 counterexample: on the chain 1 → 2 → 3, a requested depth of 5 would
clamp to `min(max(5,1),3) = 3` under the claim and reach node 3 (breadth-first
distance 2), but the code resets any out-of-range depth to 1 and returns only
nodes 1 and 2; with requested depth 3 the same traversal does return node 3. -/
theorem C3_counterexample :
    ((neighbors bfsExampleDb 1 [] Direction.out 5).1.map fun n => n.id) = [1, 2]
    ∧ ((neighbors bfsExampleDb 1 [] Direction.out 3).1.map fun n => n.id) = [1, 2, 3] := by
  constructor
  · decide
  · decide

namespace GraphStore
/-- Reachability is monotone in the step bound. -/
theorem reach_mono {db : GraphDB} {kinds : List String} {dir : Direction} :
    ∀ {k a i : Nat}, ReachWithin db kinds dir k a i → ReachWithin db kinds dir (k + 1) a i := by
  intro k
  induction k with
  | zero =>
    intro a i h
    exact Or.inl h
  | succ k ih =>
    intro a i h
    rcases h with h | ⟨m, hm, hr⟩
    · exact Or.inl h
    · exact Or.inr ⟨m, hm, ih hr⟩
end GraphStore

namespace GraphStore
/-- Reachability is monotone in the step bound (general form). -/
theorem reach_le {db : GraphDB} {kinds : List String} {dir : Direction} {k k' : Nat}
    (h : k ≤ k') : ∀ {a i : Nat},
    ReachWithin db kinds dir k a i → ReachWithin db kinds dir k' a i := by
  induction h with
  | refl => intro a i h; exact h
  | step _ ih => intro a i h; exact reach_mono (ih h)
end GraphStore

namespace GraphStore
/-- Appending one traversal step at the end of a reachability path. -/
theorem reach_snoc {db : GraphDB} {kinds : List String} {dir : Direction} :
    ∀ {k a m b : Nat}, ReachWithin db kinds dir k a m → Adj db kinds dir m b →
      ReachWithin db kinds dir (k + 1) a b := by
  intro k
  induction k with
  | zero =>
    intro a m b h hadj
    subst h
    exact Or.inr ⟨b, hadj, rfl⟩
  | succ k ih =>
    intro a m b h hadj
    rcases h with h | ⟨m', hm', hr'⟩
    · subst h
      exact Or.inr ⟨b, hadj,
        reach_le (Nat.zero_le (k + 1)) (show ReachWithin db kinds dir 0 b b from rfl)⟩
    · exact Or.inr ⟨m', hm', ih hr' hadj⟩
end GraphStore

namespace GraphStore
/-- An invariant is carried through a fold when every step preserves it. -/
theorem foldl_preserve {σ α : Type} (P : σ → Prop) (f : σ → α → σ) :
    ∀ (L : List α) (s : σ), (∀ t a, a ∈ L → P t → P (f t a)) → P s → P (L.foldl f s) := by
  intro L
  induction L with
  | nil =>
    intro s _ hs
    simpa using hs
  | cons x xs ih =>
    intro s hf hs
    simp only [List.foldl_cons]
    exact ih (f s x) (fun t a ha ht => hf t a (List.mem_cons_of_mem _ ha) ht)
      (hf s x (List.mem_cons_self _ _) hs)
end GraphStore

namespace GraphStore
/-- A per-element postcondition established by its step and preserved by later
steps holds of every element after a fold. -/
theorem foldl_establish {σ α : Type} (P : σ → Prop) (R : σ → α → Prop) (f : σ → α → σ) :
    ∀ (L : List α) (s : σ),
      (∀ t a, a ∈ L → P t → P (f t a)) →
      (∀ t a, a ∈ L → P t → R (f t a) a) →
      (∀ t a b, b ∈ L → R t a → R (f t b) a) →
      P s → ∀ a ∈ L, R (L.foldl f s) a := by
  intro L
  induction L with
  | nil =>
    intro s _ _ _ _ a ha
    cases ha
  | cons x xs ih =>
    intro s hP hR hM hs a ha
    simp only [List.foldl_cons]
    rw [List.mem_cons] at ha
    rcases ha with ha | ha
    · refine foldl_preserve (fun t => R t a) f xs (f s x) ?_ ?_
      · exact fun t b hb ht => hM t a b (List.mem_cons_of_mem _ hb) ht
      · rw [ha]
        exact hR s x (List.mem_cons_self _ _) hs
    · exact ih (f s x)
        (fun t b hb ht => hP t b (List.mem_cons_of_mem _ hb) ht)
        (fun t b hb ht => hR t b (List.mem_cons_of_mem _ hb) ht)
        (fun t b c hc ht => hM t b c (List.mem_cons_of_mem _ hc) ht)
        (hP s x (List.mem_cons_self _ _) hs) a ha
end GraphStore

namespace GraphStore
/-- A found node row carries the looked-up id. -/
theorem getNode_id {db : GraphDB} {i : Nat} {nd : KGNode} (h : getNode db i = some nd) :
    nd.id = i := by
  have := List.find?_some h
  exact beq_iff_eq.mp this
end GraphStore

namespace GraphStore
/-- A found node row is a row of the store. -/
theorem getNode_mem {db : GraphDB} {i : Nat} {nd : KGNode} (h : getNode db i = some nd) :
    nd ∈ db.nodes := List.mem_of_find?_eq_some h
end GraphStore

namespace GraphStore
/-- An id that is the id of some node row is found by `getNode`. -/
theorem getNode_isSome_of_exists {db : GraphDB} {i : Nat}
    (h : ∃ n ∈ db.nodes, n.id = i) : (getNode db i).isSome := by
  rcases h with ⟨n, hn, hid⟩
  rcases hg : getNode db i with _ | nd
  · exfalso
    unfold getNode at hg
    rw [List.find?_eq_none] at hg
    have hx := hg n hn
    simp [hid] at hx
  · simp
end GraphStore

namespace GraphStore
/-- Boolean `contains` agrees with membership. -/
theorem contains_iff_mem {α : Type} [BEq α] [LawfulBEq α] {l : List α} {a : α} :
    l.contains a = true ↔ a ∈ l := by
  simp [List.contains, List.elem_iff]
end GraphStore

namespace GraphStore
/-- A `contains`-check that came back false refutes membership. -/
theorem not_mem_of_contains_false {α : Type} [BEq α] [LawfulBEq α] {l : List α} {a : α}
    (h : l.contains a = false) : a ∉ l := by
  intro hm
  have hc := contains_iff_mem.mpr hm
  rw [h] at hc
  exact Bool.false_ne_true hc
end GraphStore

namespace GraphStore
/-- The four possible outcomes of one `visitEdge` step. -/
theorem visitEdge_char (db : GraphDB) (other : KGEdge → Nat) (st : Traversal) (e : KGEdge) :
    (st.visitedEdges.contains e.id = true ∧ visitEdge db other st e = st)
    ∨ (st.visitedEdges.contains e.id = false ∧ st.visitedNodes.contains (other e) = true ∧
        visitEdge db other st e =
          { st with
            visitedEdges := e.id :: st.visitedEdges, edges := st.edges ++ [e] })
    ∨ (st.visitedEdges.contains e.id = false ∧ st.visitedNodes.contains (other e) = false ∧
        ∃ nd, getNode db (other e) = some nd ∧
          visitEdge db other st e =
            { st with
              visitedNodes := other e :: st.visitedNodes,
              visitedEdges := e.id :: st.visitedEdges, nodes := st.nodes ++ [nd],
              edges := st.edges ++ [e], next := st.next ++ [other e] })
    ∨ (st.visitedEdges.contains e.id = false ∧ st.visitedNodes.contains (other e) = false ∧
        getNode db (other e) = none ∧
        visitEdge db other st e =
          { st with
            visitedNodes := other e :: st.visitedNodes,
            visitedEdges := e.id :: st.visitedEdges, edges := st.edges ++ [e] }) := by
  unfold visitEdge
  by_cases h1 : st.visitedEdges.contains e.id
  · have hm1 : e.id ∈ st.visitedEdges := contains_iff_mem.mp h1
    exact Or.inl ⟨h1, by simp [hm1]⟩
  · have h1' : st.visitedEdges.contains e.id = false := by simpa using h1
    have hm1 : e.id ∉ st.visitedEdges := not_mem_of_contains_false h1'
    by_cases h2 : st.visitedNodes.contains (other e)
    · have hm2 : other e ∈ st.visitedNodes := contains_iff_mem.mp h2
      refine Or.inr (Or.inl ⟨h1', h2, ?_⟩)
      simp [hm1, hm2]
    · have h2' : st.visitedNodes.contains (other e) = false := by simpa using h2
      have hm2 : other e ∉ st.visitedNodes := not_mem_of_contains_false h2'
      rcases hg : getNode db (other e) with _ | nd
      · refine Or.inr (Or.inr (Or.inr ⟨h1', h2', rfl, ?_⟩))
        simp [hm1, hm2]
      · refine Or.inr (Or.inr (Or.inl ⟨h1', h2', nd, rfl, ?_⟩))
        simp [hm1, hm2]
end GraphStore

namespace GraphStore
/-- `visitEdge` only ever grows the visited-node set. -/
theorem visitEdge_visited_mono (db : GraphDB) (other : KGEdge → Nat) (st : Traversal)
    (e : KGEdge) : ∀ v ∈ st.visitedNodes, v ∈ (visitEdge db other st e).visitedNodes := by
  intro v hv
  rcases visitEdge_char db other st e with ⟨_, heq⟩ | ⟨_, _, heq⟩ | ⟨_, _, nd, _, heq⟩
    | ⟨_, _, _, heq⟩ <;> rw [heq]
  · exact hv
  · exact hv
  · exact List.mem_cons_of_mem _ hv
  · exact List.mem_cons_of_mem _ hv
end GraphStore

namespace GraphStore
/-- `visitEdge` only ever grows the visited-edge set. -/
theorem visitEdge_visitedE_mono (db : GraphDB) (other : KGEdge → Nat) (st : Traversal)
    (e : KGEdge) : ∀ x ∈ st.visitedEdges, x ∈ (visitEdge db other st e).visitedEdges := by
  intro x hx
  rcases visitEdge_char db other st e with ⟨_, heq⟩ | ⟨_, _, heq⟩ | ⟨_, _, nd, _, heq⟩
    | ⟨_, _, _, heq⟩ <;> rw [heq]
  · exact hx
  · exact List.mem_cons_of_mem _ hx
  · exact List.mem_cons_of_mem _ hx
  · exact List.mem_cons_of_mem _ hx
end GraphStore

namespace GraphStore
/-- `visitEdge` only ever appends to the result nodes. -/
theorem visitEdge_nodes_mono (db : GraphDB) (other : KGEdge → Nat) (st : Traversal)
    (e : KGEdge) : ∀ nd ∈ st.nodes, nd ∈ (visitEdge db other st e).nodes := by
  intro nd hnd
  rcases visitEdge_char db other st e with ⟨_, heq⟩ | ⟨_, _, heq⟩ | ⟨_, _, nd', _, heq⟩
    | ⟨_, _, _, heq⟩ <;> rw [heq]
  · exact hnd
  · exact hnd
  · exact List.mem_append_left _ hnd
  · exact hnd
end GraphStore

namespace GraphStore
/-- `visitEdge` only ever appends to the result edges. -/
theorem visitEdge_edges_mono (db : GraphDB) (other : KGEdge → Nat) (st : Traversal)
    (e : KGEdge) : ∀ x ∈ st.edges, x ∈ (visitEdge db other st e).edges := by
  intro x hx
  rcases visitEdge_char db other st e with ⟨_, heq⟩ | ⟨_, _, heq⟩ | ⟨_, _, nd', _, heq⟩
    | ⟨_, _, _, heq⟩ <;> rw [heq]
  · exact hx
  · exact List.mem_append_left _ hx
  · exact List.mem_append_left _ hx
  · exact List.mem_append_left _ hx
end GraphStore

namespace GraphStore
/-- `visitEdge` only ever appends to the queued ids. -/
theorem visitEdge_next_mono (db : GraphDB) (other : KGEdge → Nat) (st : Traversal)
    (e : KGEdge) : ∀ x ∈ st.next, x ∈ (visitEdge db other st e).next := by
  intro x hx
  rcases visitEdge_char db other st e with ⟨_, heq⟩ | ⟨_, _, heq⟩ | ⟨_, _, nd', _, heq⟩
    | ⟨_, _, _, heq⟩ <;> rw [heq]
  · exact hx
  · exact hx
  · exact List.mem_append_left _ hx
  · exact hx
end GraphStore

namespace GraphStore
/-- Any node added by `visitEdge` carries the traversed edge's far endpoint id. -/
theorem visitEdge_nodes_sub (db : GraphDB) (other : KGEdge → Nat) (st : Traversal)
    (e : KGEdge) :
    ∀ nd ∈ (visitEdge db other st e).nodes, nd ∈ st.nodes ∨ nd.id = other e := by
  intro nd hnd
  rcases visitEdge_char db other st e with ⟨_, heq⟩ | ⟨_, _, heq⟩ | ⟨_, _, nd', hg, heq⟩
    | ⟨_, _, _, heq⟩ <;> rw [heq] at hnd
  · exact Or.inl hnd
  · exact Or.inl hnd
  · rcases List.mem_append.mp hnd with h | h
    · exact Or.inl h
    · rw [List.mem_singleton] at h
      exact Or.inr (h ▸ getNode_id hg)
  · exact Or.inl hnd
end GraphStore

namespace GraphStore
/-- Any id `visitEdge` queues is the traversed edge's far endpoint id. -/
theorem visitEdge_next_sub (db : GraphDB) (other : KGEdge → Nat) (st : Traversal)
    (e : KGEdge) :
    ∀ x ∈ (visitEdge db other st e).next, x ∈ st.next ∨ x = other e := by
  intro x hx
  rcases visitEdge_char db other st e with ⟨_, heq⟩ | ⟨_, _, heq⟩ | ⟨_, _, nd', hg, heq⟩
    | ⟨_, _, _, heq⟩ <;> rw [heq] at hx
  · exact Or.inl hx
  · exact Or.inl hx
  · rcases List.mem_append.mp hx with h | h
    · exact Or.inl h
    · rw [List.mem_singleton] at h
      exact Or.inr h
  · exact Or.inl hx
end GraphStore

namespace GraphStore
/-- `visitEdge` keeps the dedup invariants. -/
theorem visitEdge_dedup (db : GraphDB) (other : KGEdge → Nat) (st : Traversal) (e : KGEdge)
    (h : DedupInv st) : DedupInv (visitEdge db other st e) := by
  obtain ⟨hNS, hES, hNN, hEN⟩ := h
  rcases visitEdge_char db other st e with ⟨_, heq⟩ | ⟨h1, _, heq⟩ | ⟨h1, h2, nd, hg, heq⟩
    | ⟨h1, h2, _, heq⟩ <;> rw [heq]
  · exact ⟨hNS, hES, hNN, hEN⟩
  · refine ⟨fun n hn => hNS n hn, ?_, hNN, ?_⟩
    · intro x hx
      rcases List.mem_append.mp hx with hx' | hx'
      · exact List.mem_cons_of_mem _ (hES x hx')
      · rw [List.mem_singleton] at hx'
        rw [hx']
        exact List.mem_cons_self _ _
    · unfold EdgesNodup
      rw [List.map_append, List.nodup_append]
      refine ⟨hEN, List.nodup_singleton _, ?_⟩
      intro a ha hb
      simp only [List.map_cons, List.map_nil, List.mem_singleton] at hb
      rcases List.mem_map.mp ha with ⟨x, hx, hax⟩
      have hax' : x.id = a := hax
      exact absurd (by rw [← hb, ← hax']; exact hES x hx) (not_mem_of_contains_false h1)
  · refine ⟨?_, ?_, ?_, ?_⟩
    · intro n hn
      rcases List.mem_append.mp hn with hn' | hn'
      · exact List.mem_cons_of_mem _ (hNS n hn')
      · rw [List.mem_singleton] at hn'
        rw [hn', getNode_id hg]
        exact List.mem_cons_self _ _
    · intro x hx
      rcases List.mem_append.mp hx with hx' | hx'
      · exact List.mem_cons_of_mem _ (hES x hx')
      · rw [List.mem_singleton] at hx'
        rw [hx']
        exact List.mem_cons_self _ _
    · unfold NodesNodup
      rw [List.map_append, List.nodup_append]
      refine ⟨hNN, List.nodup_singleton _, ?_⟩
      intro a ha hb
      simp only [List.map_cons, List.map_nil, List.mem_singleton] at hb
      rcases List.mem_map.mp ha with ⟨x, hx, hax⟩
      have hax' : x.id = a := hax
      have hmem : other e ∈ st.visitedNodes := by
        have hxid : x.id = other e := by rw [hax', hb, getNode_id hg]
        rw [← hxid]
        exact hNS x hx
      exact absurd hmem (not_mem_of_contains_false h2)
    · unfold EdgesNodup
      rw [List.map_append, List.nodup_append]
      refine ⟨hEN, List.nodup_singleton _, ?_⟩
      intro a ha hb
      simp only [List.map_cons, List.map_nil, List.mem_singleton] at hb
      rcases List.mem_map.mp ha with ⟨x, hx, hax⟩
      have hax' : x.id = a := hax
      exact absurd (by rw [← hb, ← hax']; exact hES x hx) (not_mem_of_contains_false h1)
  · refine ⟨fun n hn => List.mem_cons_of_mem _ (hNS n hn), ?_, hNN, ?_⟩
    · intro x hx
      rcases List.mem_append.mp hx with hx' | hx'
      · exact List.mem_cons_of_mem _ (hES x hx')
      · rw [List.mem_singleton] at hx'
        rw [hx']
        exact List.mem_cons_self _ _
    · unfold EdgesNodup
      rw [List.map_append, List.nodup_append]
      refine ⟨hEN, List.nodup_singleton _, ?_⟩
      intro a ha hb
      simp only [List.map_cons, List.map_nil, List.mem_singleton] at hb
      rcases List.mem_map.mp ha with ⟨x, hx, hax⟩
      have hax' : x.id = a := hax
      exact absurd (by rw [← hb, ← hax']; exact hES x hx) (not_mem_of_contains_false h1)
end GraphStore

namespace GraphStore
/-- Unpacking membership in the out-edge query. -/
theorem outEdges_mem {db : GraphDB} {kinds : List String} {cur : Nat} {e : KGEdge}
    (h : e ∈ outEdges db kinds cur) :
    e ∈ db.edges ∧ e.src_id = cur ∧ edgeKindOk kinds e = true := by
  unfold outEdges at h
  rw [List.mem_filter] at h
  rcases h with ⟨h1, h2⟩
  rw [Bool.and_eq_true] at h2
  exact ⟨h1, beq_iff_eq.mp h2.1, h2.2⟩
end GraphStore

namespace GraphStore
/-- Unpacking membership in the in-edge query. -/
theorem inEdges_mem {db : GraphDB} {kinds : List String} {cur : Nat} {e : KGEdge}
    (h : e ∈ inEdges db kinds cur) :
    e ∈ db.edges ∧ e.dst_id = cur ∧ edgeKindOk kinds e = true := by
  unfold inEdges at h
  rw [List.mem_filter] at h
  rcases h with ⟨h1, h2⟩
  rw [Bool.and_eq_true] at h2
  exact ⟨h1, beq_iff_eq.mp h2.1, h2.2⟩
end GraphStore

namespace GraphStore
/-- A store edge is in the out-edge query for its source when its kind passes. -/
theorem mem_outEdges {db : GraphDB} {kinds : List String} {e : KGEdge}
    (he : e ∈ db.edges) (hk : edgeKindOk kinds e = true) :
    e ∈ outEdges db kinds e.src_id := by
  unfold outEdges
  rw [List.mem_filter]
  exact ⟨he, by rw [Bool.and_eq_true]; exact ⟨beq_iff_eq.mpr rfl, hk⟩⟩
end GraphStore

namespace GraphStore
/-- A store edge is in the in-edge query for its destination when its kind passes. -/
theorem mem_inEdges {db : GraphDB} {kinds : List String} {e : KGEdge}
    (he : e ∈ db.edges) (hk : edgeKindOk kinds e = true) :
    e ∈ inEdges db kinds e.dst_id := by
  unfold inEdges
  rw [List.mem_filter]
  exact ⟨he, by rw [Bool.and_eq_true]; exact ⟨beq_iff_eq.mpr rfl, hk⟩⟩
end GraphStore

namespace GraphStore
/-- `visitEdge` keeps the both-endpoints-of-visited-edges-visited invariant,
provided the near endpoint is already visited. -/
theorem visitEdge_edgevis (db : GraphDB) (other : KGEdge → Nat) (st : Traversal) (e : KGEdge)
    (hnodup : (db.edges.map fun x => x.id).Nodup) (he : e ∈ db.edges)
    (hsrc : e.src_id = other e ∨ e.src_id ∈ st.visitedNodes)
    (hdst : e.dst_id = other e ∨ e.dst_id ∈ st.visitedNodes)
    (hEV : EdgeVis db st) : EdgeVis db (visitEdge db other st e) := by
  rcases visitEdge_char db other st e with ⟨h1, heq⟩ | ⟨h1, h2, heq⟩ | ⟨h1, h2, nd, hg, heq⟩
    | ⟨h1, h2, hg, heq⟩ <;> rw [heq] <;> intro e' he' hid'
  · exact hEV e' he' hid'
  · rcases List.mem_cons.mp hid' with h | h
    · have he'e : e' = e := List.inj_on_of_nodup_map hnodup he' he h
      subst he'e
      have hother : other e' ∈ st.visitedNodes := contains_iff_mem.mp h2
      constructor
      · rcases hsrc with h' | h'
        · rw [h']
          exact hother
        · exact h'
      · rcases hdst with h' | h'
        · rw [h']
          exact hother
        · exact h'
    · exact hEV e' he' h
  · rcases List.mem_cons.mp hid' with h | h
    · have he'e : e' = e := List.inj_on_of_nodup_map hnodup he' he h
      subst he'e
      constructor
      · rcases hsrc with h' | h'
        · rw [h']
          exact List.mem_cons_self _ _
        · exact List.mem_cons_of_mem _ h'
      · rcases hdst with h' | h'
        · rw [h']
          exact List.mem_cons_self _ _
        · exact List.mem_cons_of_mem _ h'
    · have := hEV e' he' h
      exact ⟨List.mem_cons_of_mem _ this.1, List.mem_cons_of_mem _ this.2⟩
  · rcases List.mem_cons.mp hid' with h | h
    · have he'e : e' = e := List.inj_on_of_nodup_map hnodup he' he h
      subst he'e
      constructor
      · rcases hsrc with h' | h'
        · rw [h']
          exact List.mem_cons_self _ _
        · exact List.mem_cons_of_mem _ h'
      · rcases hdst with h' | h'
        · rw [h']
          exact List.mem_cons_self _ _
        · exact List.mem_cons_of_mem _ h'
    · have := hEV e' he' h
      exact ⟨List.mem_cons_of_mem _ this.1, List.mem_cons_of_mem _ this.2⟩
end GraphStore

namespace GraphStore
/-- `visitEdge` keeps the every-visited-id-has-a-result-row invariant when the
far endpoint's node row exists. -/
theorem visitEdge_visnodes (db : GraphDB) (other : KGEdge → Nat) (st : Traversal) (e : KGEdge)
    (hsome : (getNode db (other e)).isSome) (hVN : VisNodes st) :
    VisNodes (visitEdge db other st e) := by
  rcases visitEdge_char db other st e with ⟨h1, heq⟩ | ⟨h1, h2, heq⟩ | ⟨h1, h2, nd, hg, heq⟩
    | ⟨h1, h2, hg, heq⟩ <;> rw [heq]
  · exact hVN
  · exact hVN
  · intro v hv
    rcases List.mem_cons.mp hv with h | h
    · exact ⟨nd, List.mem_append_right _ (List.mem_singleton_self _), by rw [getNode_id hg, h]⟩
    · rcases hVN v h with ⟨nd', hnd', hid'⟩
      exact ⟨nd', List.mem_append_left _ hnd', hid'⟩
  · rw [hg] at hsome
    cases hsome
end GraphStore

namespace GraphStore
/-- With an existing far endpoint, any id `visitEdge` newly visits is queued. -/
theorem visitEdge_new_in_next (db : GraphDB) (other : KGEdge → Nat) (st : Traversal)
    (e : KGEdge) (hsome : (getNode db (other e)).isSome) :
    ∀ v ∈ (visitEdge db other st e).visitedNodes,
      v ∈ st.visitedNodes ∨ v ∈ (visitEdge db other st e).next := by
  rcases visitEdge_char db other st e with ⟨h1, heq⟩ | ⟨h1, h2, heq⟩ | ⟨h1, h2, nd, hg, heq⟩
    | ⟨h1, h2, hg, heq⟩ <;> rw [heq] <;> intro v hv
  · exact Or.inl hv
  · exact Or.inl hv
  · rcases List.mem_cons.mp hv with h | h
    · exact Or.inr (List.mem_append_right _ (by rw [h]; exact List.mem_singleton_self _))
    · exact Or.inl h
  · rw [hg] at hsome
    cases hsome
end GraphStore

namespace GraphStore
/-- `visitEdge` keeps queued ids visited. -/
theorem visitEdge_next_sub_vis (db : GraphDB) (other : KGEdge → Nat) (st : Traversal)
    (e : KGEdge) (h : ∀ x ∈ st.next, x ∈ st.visitedNodes) :
    ∀ x ∈ (visitEdge db other st e).next, x ∈ (visitEdge db other st e).visitedNodes := by
  rcases visitEdge_char db other st e with ⟨h1, heq⟩ | ⟨h1, h2, heq⟩ | ⟨h1, h2, nd, hg, heq⟩
    | ⟨h1, h2, hg, heq⟩ <;> rw [heq] <;> intro x hx
  · exact h x hx
  · exact h x hx
  · rcases List.mem_append.mp hx with h' | h'
    · exact List.mem_cons_of_mem _ (h x h')
    · rw [List.mem_singleton] at h'
      rw [h']
      exact List.mem_cons_self _ _
  · exact List.mem_cons_of_mem _ (h x hx)
end GraphStore

namespace GraphStore
/-- After its own `visitEdge` step, the far endpoint of the edge is visited. -/
theorem visitEdge_other_visited (db : GraphDB) (other : KGEdge → Nat) (st : Traversal)
    (e : KGEdge) (he : e ∈ db.edges)
    (hproj : other e = e.src_id ∨ other e = e.dst_id) (hEV : EdgeVis db st) :
    other e ∈ (visitEdge db other st e).visitedNodes := by
  rcases visitEdge_char db other st e with ⟨h1, heq⟩ | ⟨h1, h2, heq⟩ | ⟨h1, h2, nd, hg, heq⟩
    | ⟨h1, h2, hg, heq⟩ <;> rw [heq]
  · have hvis := hEV e he (contains_iff_mem.mp h1)
    rcases hproj with h | h <;> rw [h]
    · exact hvis.1
    · exact hvis.2
  · exact contains_iff_mem.mp h2
  · exact List.mem_cons_self _ _
  · exact List.mem_cons_self _ _
end GraphStore

namespace GraphStore
/-- Lifting a `visitEdge`-preserved invariant through `processNode`. -/
theorem processNode_preserve (db : GraphDB) (kinds : List String) (dir : Direction)
    (P : Traversal → Prop)
    (hP : ∀ (other : KGEdge → Nat) (t : Traversal) (e : KGEdge), P t → P (visitEdge db other t e))
    (st : Traversal) (cur : Nat) (h : P st) : P (processNode db kinds dir st cur) := by
  unfold processNode
  dsimp only
  split
  · refine foldl_preserve P _ _ _ (fun t a _ ht => hP _ t a ht) ?_
    split
    · exact foldl_preserve P _ _ _ (fun t a _ ht => hP _ t a ht) h
    · exact h
  · split
    · exact foldl_preserve P _ _ _ (fun t a _ ht => hP _ t a ht) h
    · exact h
end GraphStore

namespace GraphStore
/-- One direction loop only adds nodes and queue entries whose id satisfies the
far-endpoint predicate. -/
theorem foldVisit_sound (db : GraphDB) (other : KGEdge → Nat) (L : List KGEdge)
    (A : Nat → Prop) (hL : ∀ e ∈ L, A (other e)) (st0 : Traversal) :
    (∀ nd ∈ (L.foldl (visitEdge db other) st0).nodes, nd ∈ st0.nodes ∨ A nd.id)
    ∧ (∀ x ∈ (L.foldl (visitEdge db other) st0).next, x ∈ st0.next ∨ A x) := by
  refine foldl_preserve
    (fun t => (∀ nd ∈ t.nodes, nd ∈ st0.nodes ∨ A nd.id) ∧ (∀ x ∈ t.next, x ∈ st0.next ∨ A x))
    (visitEdge db other) L st0 ?_ ?_
  · intro t e he ht
    constructor
    · intro nd hnd
      rcases visitEdge_nodes_sub db other t e nd hnd with h | h
      · exact ht.1 nd h
      · rw [h]
        exact Or.inr (hL e he)
    · intro x hx
      rcases visitEdge_next_sub db other t e x hx with h | h
      · exact ht.2 x h
      · rw [h]
        exact Or.inr (hL e he)
  · exact ⟨fun nd hnd => Or.inl hnd, fun x hx => Or.inl hx⟩
end GraphStore

namespace GraphStore
/-- `processNode` only adds nodes and queue entries adjacent to the dequeued
node, in an allowed direction and through an allowed edge kind. -/
theorem processNode_sound (db : GraphDB) (kinds : List String) (dir : Direction)
    (st : Traversal) (cur : Nat) :
    (∀ nd ∈ (processNode db kinds dir st cur).nodes,
        nd ∈ st.nodes ∨ Adj db kinds dir cur nd.id)
    ∧ (∀ x ∈ (processNode db kinds dir st cur).next, x ∈ st.next ∨ Adj db kinds dir cur x) := by
  unfold processNode
  dsimp only
  split
  next hin =>
    split
    next hout =>
      have s1 := foldVisit_sound db (fun e => e.dst_id) (outEdges db kinds cur)
        (Adj db kinds dir cur)
        (fun e he => by
          rcases outEdges_mem he with ⟨h1, h2, h3⟩
          exact ⟨e, h1, h3, Or.inl ⟨hout, h2, rfl⟩⟩) st
      have s2 := foldVisit_sound db (fun e => e.src_id) (inEdges db kinds cur)
        (Adj db kinds dir cur)
        (fun e he => by
          rcases inEdges_mem he with ⟨h1, h2, h3⟩
          exact ⟨e, h1, h3, Or.inr ⟨hin, h2, rfl⟩⟩)
        ((outEdges db kinds cur).foldl (visitEdge db fun e => e.dst_id) st)
      constructor
      · intro nd hnd
        rcases s2.1 nd hnd with h | h
        · exact s1.1 nd h
        · exact Or.inr h
      · intro x hx
        rcases s2.2 x hx with h | h
        · exact s1.2 x h
        · exact Or.inr h
    next hout =>
      exact foldVisit_sound db (fun e => e.src_id) (inEdges db kinds cur)
        (Adj db kinds dir cur)
        (fun e he => by
          rcases inEdges_mem he with ⟨h1, h2, h3⟩
          exact ⟨e, h1, h3, Or.inr ⟨hin, h2, rfl⟩⟩) st
  next hin =>
    split
    next hout =>
      exact foldVisit_sound db (fun e => e.dst_id) (outEdges db kinds cur)
        (Adj db kinds dir cur)
        (fun e he => by
          rcases outEdges_mem he with ⟨h1, h2, h3⟩
          exact ⟨e, h1, h3, Or.inl ⟨hout, h2, rfl⟩⟩) st
    next hout =>
      exact ⟨fun nd hnd => Or.inl hnd, fun x hx => Or.inl hx⟩
end GraphStore

namespace GraphStore
/-- One BFS level only adds nodes adjacent to the frontier, and only queues ids
adjacent to the frontier. -/
theorem expandLevel_sound (db : GraphDB) (kinds : List String) (dir : Direction)
    (st : Traversal) (frontier : List Nat) :
    (∀ nd ∈ (expandLevel db kinds dir st frontier).nodes,
        nd ∈ st.nodes ∨ ∃ a ∈ frontier, Adj db kinds dir a nd.id)
    ∧ (∀ x ∈ (expandLevel db kinds dir st frontier).next,
        ∃ a ∈ frontier, Adj db kinds dir a x) := by
  unfold expandLevel
  refine foldl_preserve
    (fun t => (∀ nd ∈ t.nodes, nd ∈ st.nodes ∨ ∃ a ∈ frontier, Adj db kinds dir a nd.id)
      ∧ (∀ x ∈ t.next, ∃ a ∈ frontier, Adj db kinds dir a x))
    (processNode db kinds dir) frontier _ ?_ ?_
  · intro t cur hcur ht
    obtain ⟨p1, p2⟩ := processNode_sound db kinds dir t cur
    constructor
    · intro nd hnd
      rcases p1 nd hnd with h | h
      · exact ht.1 nd h
      · exact Or.inr ⟨cur, hcur, h⟩
    · intro x hx
      rcases p2 x hx with h | h
      · exact ht.2 x h
      · exact ⟨cur, hcur, h⟩
  · exact ⟨fun nd hnd => Or.inl hnd, fun x hx => absurd hx (List.not_mem_nil x)⟩
end GraphStore

namespace GraphStore
/-- Soundness of the BFS loop: starting from a frontier whose ids are within
`j` steps of `start` and results within `j + k` steps, after `k` more levels
every result node is within `j + k` steps of `start`. -/
theorem runLevels_sound (db : GraphDB) (kinds : List String) (dir : Direction) (start : Nat) :
    ∀ (k : Nat) (st : Traversal) (frontier : List Nat) (j : Nat),
      (∀ a ∈ frontier, ReachWithin db kinds dir j start a) →
      (∀ nd ∈ st.nodes, ReachWithin db kinds dir (j + k) start nd.id) →
      ∀ nd ∈ (runLevels db kinds dir k st frontier).nodes,
        ReachWithin db kinds dir (j + k) start nd.id := by
  intro k
  induction k with
  | zero =>
    intro st frontier j _ hn nd hnd
    exact hn nd hnd
  | succ k ih =>
    intro st frontier j hf hn nd hnd
    obtain ⟨e1, e2⟩ := expandLevel_sound db kinds dir st frontier
    have hn' : ∀ nd ∈ (expandLevel db kinds dir st frontier).nodes,
        ReachWithin db kinds dir ((j + 1) + k) start nd.id := by
      intro nd' hnd'
      rcases e1 nd' hnd' with h | ⟨a, ha, hadj⟩
      · rw [show (j + 1) + k = j + (k + 1) by omega]
        exact hn nd' h
      · exact reach_le (by omega) (reach_snoc (hf a ha) hadj)
    have hf' : ∀ x ∈ (expandLevel db kinds dir st frontier).next,
        ReachWithin db kinds dir (j + 1) start x := by
      intro x hx
      rcases e2 x hx with ⟨a, ha, hadj⟩
      exact reach_snoc (hf a ha) hadj
    have hmem : nd ∈ (runLevels db kinds dir k (expandLevel db kinds dir st frontier)
        (expandLevel db kinds dir st frontier).next).nodes := hnd
    have hres := ih (expandLevel db kinds dir st frontier)
      (expandLevel db kinds dir st frontier).next (j + 1) hf' hn' nd hmem
    rw [show j + (k + 1) = (j + 1) + k by omega]
    exact hres
end GraphStore

namespace GraphStore
/-- One direction loop of a dequeued node, on a well-formed store: the bundle
is preserved and afterwards the far endpoint of every edge of the loop's query
is visited. -/
theorem foldVisit_complete (db : GraphDB) (other : KGEdge → Nat) (L : List KGEdge)
    (base : Traversal) (cur : Nat) (hWF : WFdb db)
    (hends : ∀ e ∈ L,
      (other e = e.dst_id ∧ e.src_id = cur) ∨ (other e = e.src_id ∧ e.dst_id = cur))
    (hmemL : ∀ e ∈ L, e ∈ db.edges) (st0 : Traversal)
    (h0 : CBundle db base cur st0) :
    CBundle db base cur (L.foldl (visitEdge db other) st0)
    ∧ ∀ e ∈ L, other e ∈ (L.foldl (visitEdge db other) st0).visitedNodes := by
  have hsome : ∀ e ∈ L, (getNode db (other e)).isSome := by
    intro e he
    rcases hends e he with ⟨h1, _⟩ | ⟨h1, _⟩
    · rw [h1]
      exact getNode_isSome_of_exists ((hWF.2 e (hmemL e he)).2)
    · rw [h1]
      exact getNode_isSome_of_exists ((hWF.2 e (hmemL e he)).1)
  have hstep : ∀ t e, e ∈ L → CBundle db base cur t →
      CBundle db base cur (visitEdge db other t e) := by
    intro t e he ht
    obtain ⟨tEV, tVN, tcur, tnx, tbm, tnn⟩ := ht
    have hsrc : e.src_id = other e ∨ e.src_id ∈ t.visitedNodes := by
      rcases hends e he with ⟨h1, h2⟩ | ⟨h1, h2⟩
      · rw [h2]
        exact Or.inr tcur
      · exact Or.inl h1.symm
    have hdst : e.dst_id = other e ∨ e.dst_id ∈ t.visitedNodes := by
      rcases hends e he with ⟨h1, h2⟩ | ⟨h1, h2⟩
      · exact Or.inl h1.symm
      · rw [h2]
        exact Or.inr tcur
    refine ⟨visitEdge_edgevis db other t e hWF.1 (hmemL e he) hsrc hdst tEV,
      visitEdge_visnodes db other t e (hsome e he) tVN,
      visitEdge_visited_mono db other t e cur tcur,
      visitEdge_next_sub_vis db other t e tnx,
      fun v hv => visitEdge_visited_mono db other t e v (tbm v hv), ?_⟩
    intro v hv
    rcases visitEdge_new_in_next db other t e (hsome e he) v hv with h | h
    · rcases tnn v h with h' | h'
      · exact Or.inl h'
      · exact Or.inr (visitEdge_next_mono db other t e v h')
    · exact Or.inr h
  refine ⟨foldl_preserve (CBundle db base cur) (visitEdge db other) L st0 hstep h0, ?_⟩
  refine foldl_establish (CBundle db base cur) (fun t e => other e ∈ t.visitedNodes)
    (visitEdge db other) L st0 hstep ?_ ?_ h0
  · intro t e he ht
    have hproj : other e = e.src_id ∨ other e = e.dst_id := by
      rcases hends e he with ⟨h1, _⟩ | ⟨h1, _⟩
      · exact Or.inr h1
      · exact Or.inl h1
    exact visitEdge_other_visited db other t e (hmemL e he) hproj ht.1
  · intro t a b _ hR
    exact visitEdge_visited_mono db other t b (other a) hR
end GraphStore

namespace GraphStore
/-- Visited ids persist through `processNode`. -/
theorem processNode_visited_mono (db : GraphDB) (kinds : List String) (dir : Direction)
    (st : Traversal) (cur : Nat) :
    ∀ v ∈ st.visitedNodes, v ∈ (processNode db kinds dir st cur).visitedNodes := by
  intro v hv
  exact processNode_preserve db kinds dir (fun t => v ∈ t.visitedNodes)
    (fun o t e ht => visitEdge_visited_mono db o t e v ht) st cur hv
end GraphStore

namespace GraphStore
/-- Queued ids persist through `processNode`. -/
theorem processNode_next_mono (db : GraphDB) (kinds : List String) (dir : Direction)
    (st : Traversal) (cur : Nat) :
    ∀ x ∈ st.next, x ∈ (processNode db kinds dir st cur).next := by
  intro x hx
  exact processNode_preserve db kinds dir (fun t => x ∈ t.next)
    (fun o t e ht => visitEdge_next_mono db o t e x ht) st cur hx
end GraphStore

namespace GraphStore
/-- Result nodes persist through `processNode`. -/
theorem processNode_nodes_mono (db : GraphDB) (kinds : List String) (dir : Direction)
    (st : Traversal) (cur : Nat) :
    ∀ nd ∈ st.nodes, nd ∈ (processNode db kinds dir st cur).nodes := by
  intro nd hnd
  exact processNode_preserve db kinds dir (fun t => nd ∈ t.nodes)
    (fun o t e ht => visitEdge_nodes_mono db o t e nd ht) st cur hnd
end GraphStore

namespace GraphStore
/-- Expanding a dequeued node on a well-formed store preserves the bundle and
leaves the node fully expanded. -/
theorem processNode_complete (db : GraphDB) (kinds : List String) (dir : Direction)
    (st : Traversal) (cur : Nat) (hWF : WFdb db)
    (hEV : EdgeVis db st) (hVN : VisNodes st) (hcur : cur ∈ st.visitedNodes)
    (hnx : ∀ x ∈ st.next, x ∈ st.visitedNodes) :
    CBundle db st cur (processNode db kinds dir st cur)
    ∧ Expanded db kinds dir (processNode db kinds dir st cur) cur := by
  have h0 : CBundle db st cur st :=
    ⟨hEV, hVN, hcur, hnx, fun v hv => hv, fun v hv => Or.inl hv⟩
  unfold processNode
  dsimp only
  split
  next hin =>
    split
    next hout =>
      have hc1 := foldVisit_complete db (fun e => e.dst_id) (outEdges db kinds cur) st cur hWF
        (fun e he => Or.inl ⟨rfl, (outEdges_mem he).2.1⟩)
        (fun e he => (outEdges_mem he).1) st h0
      have hc2 := foldVisit_complete db (fun e => e.src_id) (inEdges db kinds cur) st cur hWF
        (fun e he => Or.inr ⟨rfl, (inEdges_mem he).2.1⟩)
        (fun e he => (inEdges_mem he).1) _ hc1.1
      refine ⟨hc2.1, ?_⟩
      rintro b ⟨e, he, hk, hcase⟩
      rcases hcase with ⟨_, hsrc, hdst⟩ | ⟨_, hdst, hsrc⟩
      · have hmem : e ∈ outEdges db kinds cur := by
          rw [← hsrc]
          exact mem_outEdges he hk
        have hvis := hc1.2 e hmem
        rw [← hdst]
        exact foldl_preserve (fun t => e.dst_id ∈ t.visitedNodes)
          (visitEdge db fun x => x.src_id) (inEdges db kinds cur)
          ((outEdges db kinds cur).foldl (visitEdge db fun x => x.dst_id) st)
          (fun t a _ ht => visitEdge_visited_mono db _ t a _ ht) hvis
      · have hmem : e ∈ inEdges db kinds cur := by
          rw [← hdst]
          exact mem_inEdges he hk
        have hvis := hc2.2 e hmem
        rw [← hsrc]
        exact hvis
    next hout =>
      have hc2 := foldVisit_complete db (fun e => e.src_id) (inEdges db kinds cur) st cur hWF
        (fun e he => Or.inr ⟨rfl, (inEdges_mem he).2.1⟩)
        (fun e he => (inEdges_mem he).1) st h0
      refine ⟨hc2.1, ?_⟩
      rintro b ⟨e, he, hk, hcase⟩
      rcases hcase with ⟨ho', _, _⟩ | ⟨_, hdst, hsrc⟩
      · exact absurd ho' hout
      · have hmem : e ∈ inEdges db kinds cur := by
          rw [← hdst]
          exact mem_inEdges he hk
        have hvis := hc2.2 e hmem
        rw [← hsrc]
        exact hvis
  next hin =>
    split
    next hout =>
      have hc1 := foldVisit_complete db (fun e => e.dst_id) (outEdges db kinds cur) st cur hWF
        (fun e he => Or.inl ⟨rfl, (outEdges_mem he).2.1⟩)
        (fun e he => (outEdges_mem he).1) st h0
      refine ⟨hc1.1, ?_⟩
      rintro b ⟨e, he, hk, hcase⟩
      rcases hcase with ⟨_, hsrc, hdst⟩ | ⟨hi', _, _⟩
      · have hmem : e ∈ outEdges db kinds cur := by
          rw [← hsrc]
          exact mem_outEdges he hk
        have hvis := hc1.2 e hmem
        rw [← hdst]
        exact hvis
      · exact absurd hi' hin
    next hout =>
      refine ⟨h0, ?_⟩
      rintro b ⟨e, he, hk, hcase⟩
      rcases hcase with ⟨ho', _, _⟩ | ⟨hi', _, _⟩
      · exact absurd ho' hout
      · exact absurd hi' hin
end GraphStore

namespace GraphStore
/-- One full BFS level on a well-formed store: the invariants survive, visited
ids persist, newly visited ids are exactly queued, and every frontier node
comes out fully expanded. -/
theorem expandLevel_complete (db : GraphDB) (kinds : List String) (dir : Direction)
    (st : Traversal) (frontier : List Nat) (hWF : WFdb db)
    (hEV : EdgeVis db st) (hVN : VisNodes st)
    (hfv : ∀ a ∈ frontier, a ∈ st.visitedNodes) :
    EdgeVis db (expandLevel db kinds dir st frontier)
    ∧ VisNodes (expandLevel db kinds dir st frontier)
    ∧ (∀ x ∈ (expandLevel db kinds dir st frontier).next,
        x ∈ (expandLevel db kinds dir st frontier).visitedNodes)
    ∧ (∀ v ∈ st.visitedNodes, v ∈ (expandLevel db kinds dir st frontier).visitedNodes)
    ∧ (∀ v ∈ (expandLevel db kinds dir st frontier).visitedNodes,
        v ∈ st.visitedNodes ∨ v ∈ (expandLevel db kinds dir st frontier).next)
    ∧ (∀ a ∈ frontier, Expanded db kinds dir (expandLevel db kinds dir st frontier) a) := by
  unfold expandLevel
  have hstep : ∀ t cur, cur ∈ frontier →
      (EdgeVis db t ∧ VisNodes t ∧ (∀ a ∈ frontier, a ∈ t.visitedNodes)
        ∧ (∀ x ∈ t.next, x ∈ t.visitedNodes)
        ∧ (∀ v ∈ st.visitedNodes, v ∈ t.visitedNodes)
        ∧ (∀ v ∈ t.visitedNodes, v ∈ st.visitedNodes ∨ v ∈ t.next)) →
      (EdgeVis db (processNode db kinds dir t cur)
        ∧ VisNodes (processNode db kinds dir t cur)
        ∧ (∀ a ∈ frontier, a ∈ (processNode db kinds dir t cur).visitedNodes)
        ∧ (∀ x ∈ (processNode db kinds dir t cur).next,
            x ∈ (processNode db kinds dir t cur).visitedNodes)
        ∧ (∀ v ∈ st.visitedNodes, v ∈ (processNode db kinds dir t cur).visitedNodes)
        ∧ (∀ v ∈ (processNode db kinds dir t cur).visitedNodes,
            v ∈ st.visitedNodes ∨ v ∈ (processNode db kinds dir t cur).next)) := by
    intro t cur hcur ht
    obtain ⟨tEV, tVN, tfv, tnx, tbm, tnn⟩ := ht
    obtain ⟨⟨pEV, pVN, _, pnx, pbm, pnn⟩, _⟩ :=
      processNode_complete db kinds dir t cur hWF tEV tVN (tfv cur hcur) tnx
    refine ⟨pEV, pVN, fun a ha => pbm a (tfv a ha), pnx, fun v hv => pbm v (tbm v hv), ?_⟩
    intro v hv
    rcases pnn v hv with h | h
    · rcases tnn v h with h' | h'
      · exact Or.inl h'
      · exact Or.inr (processNode_next_mono db kinds dir t cur v h')
    · exact Or.inr h
  have hinit : EdgeVis db { st with next := [] } ∧ VisNodes { st with next := [] }
      ∧ (∀ a ∈ frontier, a ∈ ({ st with next := [] } : Traversal).visitedNodes)
      ∧ (∀ x ∈ ({ st with next := [] } : Traversal).next,
          x ∈ ({ st with next := [] } : Traversal).visitedNodes)
      ∧ (∀ v ∈ st.visitedNodes, v ∈ ({ st with next := [] } : Traversal).visitedNodes)
      ∧ (∀ v ∈ ({ st with next := [] } : Traversal).visitedNodes,
          v ∈ st.visitedNodes ∨ v ∈ ({ st with next := [] } : Traversal).next) := by
    exact ⟨hEV, hVN, hfv, fun x hx => absurd hx (List.not_mem_nil x),
      fun v hv => hv, fun v hv => Or.inl hv⟩
  have hbundle := foldl_preserve
    (fun t => EdgeVis db t ∧ VisNodes t ∧ (∀ a ∈ frontier, a ∈ t.visitedNodes)
      ∧ (∀ x ∈ t.next, x ∈ t.visitedNodes)
      ∧ (∀ v ∈ st.visitedNodes, v ∈ t.visitedNodes)
      ∧ (∀ v ∈ t.visitedNodes, v ∈ st.visitedNodes ∨ v ∈ t.next))
    (processNode db kinds dir) frontier { st with next := [] }
    (fun t a ha ht => hstep t a ha ht) hinit
  obtain ⟨fEV, fVN, ffv, fnx, fbm, fnn⟩ := hbundle
  refine ⟨fEV, fVN, fnx, fbm, fnn, ?_⟩
  refine foldl_establish
    (fun t => EdgeVis db t ∧ VisNodes t ∧ (∀ a ∈ frontier, a ∈ t.visitedNodes)
      ∧ (∀ x ∈ t.next, x ∈ t.visitedNodes)
      ∧ (∀ v ∈ st.visitedNodes, v ∈ t.visitedNodes)
      ∧ (∀ v ∈ t.visitedNodes, v ∈ st.visitedNodes ∨ v ∈ t.next))
    (fun t a => Expanded db kinds dir t a)
    (processNode db kinds dir) frontier { st with next := [] }
    (fun t a ha ht => hstep t a ha ht) ?_ ?_ hinit
  · intro t a ha ht
    obtain ⟨tEV, tVN, tfv, tnx, _, _⟩ := ht
    exact (processNode_complete db kinds dir t a hWF tEV tVN (tfv a ha) tnx).2
  · intro t a b _ hR
    intro b' hb'
    exact processNode_visited_mono db kinds dir t b b' (hR b' hb')
end GraphStore

namespace GraphStore
/-- Completeness of the BFS loop on a well-formed store: anything reachable in
at most `k` steps from an already visited node is visited after `k` levels. -/
theorem runLevels_complete (db : GraphDB) (kinds : List String) (dir : Direction)
    (hWF : WFdb db) :
    ∀ (k : Nat) (st : Traversal) (frontier : List Nat),
      EdgeVis db st → VisNodes st → (∀ a ∈ frontier, a ∈ st.visitedNodes) →
      ExpInv db kinds dir st frontier →
      ∀ a i, a ∈ st.visitedNodes → ReachWithin db kinds dir k a i →
        i ∈ (runLevels db kinds dir k st frontier).visitedNodes := by
  intro k
  induction k with
  | zero =>
    intro st frontier _ _ _ _ a i ha hr
    have hia : i = a := hr
    rw [hia]
    exact ha
  | succ k ih =>
    intro st frontier hEV hVN hfv hExp a i ha hr
    obtain ⟨eEV, eVN, enx, evm, enn, eexp⟩ :=
      expandLevel_complete db kinds dir st frontier hWF hEV hVN hfv
    have hExp' : ExpInv db kinds dir (expandLevel db kinds dir st frontier)
        (expandLevel db kinds dir st frontier).next := by
      intro v hv
      rcases enn v hv with h | h
      · rcases hExp v h with h' | h'
        · exact Or.inr (eexp v h')
        · exact Or.inr (fun b hb => evm b (h' b hb))
      · exact Or.inl h
    rcases hr with hr | ⟨m, hadj, hrm⟩
    · have hia : i = a := hr
      subst hia
      exact ih (expandLevel db kinds dir st frontier)
        (expandLevel db kinds dir st frontier).next eEV eVN enx hExp' i i (evm i ha)
        (reach_le (Nat.zero_le k) (show ReachWithin db kinds dir 0 i i from rfl))
    · have hm : m ∈ (expandLevel db kinds dir st frontier).visitedNodes := by
        rcases hExp a ha with h' | h'
        · exact eexp a h' m hadj
        · exact evm m (h' m hadj)
      exact ih (expandLevel db kinds dir st frontier)
        (expandLevel db kinds dir st frontier).next eEV eVN enx hExp' m i hm hrm
end GraphStore

namespace GraphStore
/-- The visited-ids-have-result-rows invariant survives the whole BFS loop. -/
theorem runLevels_visnodes (db : GraphDB) (kinds : List String) (dir : Direction)
    (hWF : WFdb db) :
    ∀ (k : Nat) (st : Traversal) (frontier : List Nat),
      EdgeVis db st → VisNodes st → (∀ a ∈ frontier, a ∈ st.visitedNodes) →
      VisNodes (runLevels db kinds dir k st frontier) := by
  intro k
  induction k with
  | zero =>
    intro st _ _ hVN _
    exact hVN
  | succ k ih =>
    intro st frontier hEV hVN hfv
    obtain ⟨eEV, eVN, enx, _, _, _⟩ :=
      expandLevel_complete db kinds dir st frontier hWF hEV hVN hfv
    exact ih (expandLevel db kinds dir st frontier)
      (expandLevel db kinds dir st frontier).next eEV eVN enx
end GraphStore

namespace GraphStore
/-- The dedup invariants survive one BFS level. -/
theorem expandLevel_dedup (db : GraphDB) (kinds : List String) (dir : Direction)
    (st : Traversal) (frontier : List Nat) (h : DedupInv st) :
    DedupInv (expandLevel db kinds dir st frontier) := by
  unfold expandLevel
  exact foldl_preserve DedupInv (processNode db kinds dir) frontier { st with next := [] }
    (fun t a _ ht => processNode_preserve db kinds dir DedupInv
      (fun o t' e ht' => visitEdge_dedup db o t' e ht') t a ht) h
end GraphStore

namespace GraphStore
/-- The dedup invariants survive the whole BFS loop. -/
theorem runLevels_dedup (db : GraphDB) (kinds : List String) (dir : Direction) :
    ∀ (k : Nat) (st : Traversal) (frontier : List Nat),
      DedupInv st → DedupInv (runLevels db kinds dir k st frontier) := by
  intro k
  induction k with
  | zero =>
    intro st _ h
    exact h
  | succ k ih =>
    intro st frontier h
    exact ih (expandLevel db kinds dir st frontier)
      (expandLevel db kinds dir st frontier).next (expandLevel_dedup db kinds dir st frontier h)
end GraphStore

namespace GraphStore
/-- Result nodes persist through the whole BFS loop. -/
theorem runLevels_nodes_mono (db : GraphDB) (kinds : List String) (dir : Direction) :
    ∀ (k : Nat) (st : Traversal) (frontier : List Nat),
      ∀ nd ∈ st.nodes, nd ∈ (runLevels db kinds dir k st frontier).nodes := by
  intro k
  induction k with
  | zero =>
    intro st _ nd hnd
    exact hnd
  | succ k ih =>
    intro st frontier nd hnd
    refine ih (expandLevel db kinds dir st frontier)
      (expandLevel db kinds dir st frontier).next nd ?_
    unfold expandLevel
    exact foldl_preserve (fun t => nd ∈ t.nodes) (processNode db kinds dir) frontier
      { st with next := [] }
      (fun t a _ ht => processNode_nodes_mono db kinds dir t a nd ht) hnd
end GraphStore

/-- C4: for every store, start id, edge-kind filter, direction and depth, the
node list and edge list returned by `neighbors` are duplicate-free (each node
id and each edge id appears at most once — a discovered node or edge is never
recorded again), and whenever the start id has a node row, that row is in the
returned node list. -/
theorem C4_neighbors_dedup_and_start :
    ∀ (db : GraphDB) (start : Nat) (kinds : List String) (dir : Direction) (d : Int),
      (((neighbors db start kinds dir d).1.map fun n => n.id).Nodup)
      ∧ (((neighbors db start kinds dir d).2.map fun e => e.id).Nodup)
      ∧ (∀ s, getNode db start = some s → s ∈ (neighbors db start kinds dir d).1) := by
  intro db start kinds dir d
  have hinit : DedupInv (initTraversal db start) := by
    refine ⟨?_, ?_, ?_, ?_⟩
    · intro n hn
      simp only [initTraversal] at hn ⊢
      rcases hg : getNode db start with _ | s
      · rw [hg] at hn
        cases hn
      · rw [hg] at hn
        simp only [Option.toList_some, List.mem_singleton] at hn
        rw [hn, getNode_id hg]
        exact List.mem_singleton_self _
    · intro e he
      simp only [initTraversal] at he
      cases he
    · unfold NodesNodup
      simp only [initTraversal]
      rcases hg : getNode db start with _ | s <;> simp
    · unfold EdgesNodup
      simp [initTraversal]
  obtain ⟨_, _, hNN, hEN⟩ :=
    runLevels_dedup db kinds dir (effDepth d) (initTraversal db start) [start] hinit
  refine ⟨hNN, hEN, ?_⟩
  intro s hs
  have hmem : s ∈ (initTraversal db start).nodes := by
    simp only [initTraversal, hs, Option.toList_some]
    exact List.mem_singleton_self _
  exact runLevels_nodes_mono db kinds dir (effDepth d) (initTraversal db start) [start] s hmem

/-- Witness for C4 at the concrete three-node chain: the start node's row is in
the result of a depth-2 traversal in both directions. -/
theorem C4_witness :
    (⟨1, "class", "A", "A", "ast", none, none, none, ""⟩ : KGNode)
      ∈ (neighbors bfsExampleDb 1 [] Direction.both 2).1 := by
  exact (C4_neighbors_dedup_and_start bfsExampleDb 1 [] Direction.both 2).2.2 _ (by decide)

/-- C3 amended: the effective depth of `neighbors` is the requested depth when
it already lies in `[1,3]`, and otherwise 1 (the code resets any out-of-range
depth to 1 rather than clamping to `min(max(d,1),3)`); with that effective
depth (`effDepth`), every returned node is within the effective breadth-first
distance, and — on a well-formed store with an existing start node — every id
within the effective distance is returned. -/
theorem C3_amended :
    ∀ (db : GraphDB) (start : Nat) (kinds : List String) (dir : Direction) (d : Int),
      (∀ nd ∈ (neighbors db start kinds dir d).1,
          ReachWithin db kinds dir (effDepth d) start nd.id)
      ∧ (WFdb db → ∀ s, getNode db start = some s →
          ∀ i, ReachWithin db kinds dir (effDepth d) start i →
            ∃ nd ∈ (neighbors db start kinds dir d).1, nd.id = i) := by
  intro db start kinds dir d
  constructor
  · intro nd hnd
    have hf0 : ∀ a ∈ ([start] : List Nat), ReachWithin db kinds dir 0 start a := by
      intro a ha
      rw [List.mem_singleton] at ha
      exact ha
    have hn0 : ∀ nd' ∈ (initTraversal db start).nodes,
        ReachWithin db kinds dir (0 + effDepth d) start nd'.id := by
      intro nd' hnd'
      have hid : nd'.id = start := by
        simp only [initTraversal] at hnd'
        rcases hg : getNode db start with _ | s
        · rw [hg] at hnd'
          cases hnd'
        · rw [hg] at hnd'
          simp only [Option.toList_some, List.mem_singleton] at hnd'
          rw [hnd']
          exact getNode_id hg
      rw [hid]
      exact reach_le (Nat.zero_le _) (show ReachWithin db kinds dir 0 start start from rfl)
    have hsound := runLevels_sound db kinds dir start (effDepth d) (initTraversal db start)
      [start] 0 hf0 hn0 nd hnd
    rw [Nat.zero_add] at hsound
    exact hsound
  · intro hWF s hs i hr
    have hEV0 : EdgeVis db (initTraversal db start) := by
      intro e he hid
      simp only [initTraversal] at hid
      cases hid
    have hVN0 : VisNodes (initTraversal db start) := by
      intro v hv
      simp only [initTraversal, List.mem_singleton] at hv
      refine ⟨s, ?_, ?_⟩
      · simp only [initTraversal, hs, Option.toList_some]
        exact List.mem_singleton_self _
      · rw [getNode_id hs, hv]
    have hfv0 : ∀ a ∈ ([start] : List Nat), a ∈ (initTraversal db start).visitedNodes := by
      intro a ha
      simpa [initTraversal] using ha
    have hExp0 : ExpInv db kinds dir (initTraversal db start) [start] := by
      intro a ha
      left
      simpa [initTraversal] using ha
    have hstart : start ∈ (initTraversal db start).visitedNodes := by
      simp [initTraversal]
    have hc := runLevels_complete db kinds dir hWF (effDepth d) (initTraversal db start)
      [start] hEV0 hVN0 hfv0 hExp0 start i hstart hr
    have hVNf := runLevels_visnodes db kinds dir hWF (effDepth d) (initTraversal db start)
      [start] hEV0 hVN0 hfv0
    exact hVNf i hc

/-- Witness for C3's amended theorem at the concrete three-node chain: depth 3
is in range, node 3 lies within effective distance 3 and is returned, and the
returned node 2 is certified reachable. -/
theorem C3_witness :
    WFdb bfsExampleDb
    ∧ (∃ nd ∈ (neighbors bfsExampleDb 1 [] Direction.out 3).1, nd.id = 3)
    ∧ ReachWithin bfsExampleDb [] Direction.out (effDepth 3) 1 2 := by
  have hWF : WFdb bfsExampleDb := by
    constructor
    · decide
    · decide
  have hreach : ReachWithin bfsExampleDb [] Direction.out (effDepth 3) 1 3 := by
    show ReachWithin bfsExampleDb [] Direction.out 3 1 3
    refine Or.inr ⟨2, ⟨(⟨1, "inherits", 1, 2, none, none, ""⟩ : KGEdge), by decide⟩, ?_⟩
    refine Or.inr ⟨3, ⟨(⟨2, "inherits", 2, 3, none, none, ""⟩ : KGEdge), by decide⟩, ?_⟩
    exact Or.inl rfl
  refine ⟨hWF,
    (C3_amended bfsExampleDb 1 [] Direction.out 3).2 hWF
      (⟨1, "class", "A", "A", "ast", none, none, none, ""⟩ : KGNode)
      (by decide) 3 hreach, ?_⟩
  have hmem : (⟨2, "class", "B", "B", "ast", none, none, none, ""⟩ : KGNode)
      ∈ (neighbors bfsExampleDb 1 [] Direction.out 3).1 := by
    decide
  exact (C3_amended bfsExampleDb 1 [] Direction.out 3).1 _ hmem

/-- C9 counterexample: for the reference line `t.references :category,
foreign_key: true` inside a `posts` table block, the parser records a foreign
key whose `to_table` is `"categorys"` — `pluralToSingular("category") + "s"` —
whereas the §4.5 `pluralize` of the claim gives `"categories"`. -/
theorem C9_counterexample :
    (SchemaParser.parseColumns "posts" "t.references :category, foreign_key: true").2
      = [⟨"posts", "category_id", "categorys", "id", none, none⟩]
    ∧ RailsAssociationMapper.pluralize "category" = "categories"
    ∧ ("categorys" : String) ≠ "categories" := by
  refine ⟨by decide, by decide, by decide⟩

/-- C9 (amended): for every reference-shorthand match (name `n`, options `o`)
in a table body, `parseColumns` records a companion bigint column `n_id`; when
the options contain `foreign_key: true` it records a foreign key with
`to_column = "id"` whose `to_table` is `pluralToSingular n ++ "s"` (the
parser's own singularize-then-append-s, not the §4.5 `pluralize`); and when
the options contain `polymorphic: true` it additionally records a string
column `n_type`. -/
theorem C9_amended (tableName body n o : String)
    (hm : (n, o) ∈ SchemaParser.referencesOf body) :
    ((⟨n ++ "_id", "bigint", !(strContainsSub o "null: false"), none, none, none, none⟩ :
        SchemaParser.SchemaColumn) ∈ (SchemaParser.parseColumns tableName body).1)
    ∧ (strContainsSub o "foreign_key: true" = true →
        (⟨tableName, n ++ "_id", SchemaParser.pluralToSingular n ++ "s", "id", none, none⟩ :
            SchemaParser.SchemaForeignKey) ∈ (SchemaParser.parseColumns tableName body).2)
    ∧ (strContainsSub o "polymorphic: true" = true →
        (⟨n ++ "_type", "string", !(strContainsSub o "null: false"), none, none, none, none⟩ :
            SchemaParser.SchemaColumn) ∈ (SchemaParser.parseColumns tableName body).1) := by
  refine ⟨?_, ?_, ?_⟩
  · simp only [SchemaParser.parseColumns]
    refine List.mem_append.mpr (Or.inl (List.mem_append.mpr (Or.inr ?_)))
    simp only [SchemaParser.referencesColumns]
    exact List.mem_flatMap.mpr ⟨(n, o), hm, List.mem_cons_self _ _⟩
  · intro hf
    simp only [SchemaParser.parseColumns, SchemaParser.referencesFks]
    refine List.mem_filterMap.mpr ⟨(n, o), hm, ?_⟩
    simp [hf]
  · intro hp
    simp only [SchemaParser.parseColumns]
    refine List.mem_append.mpr (Or.inl (List.mem_append.mpr (Or.inr ?_)))
    simp only [SchemaParser.referencesColumns]
    refine List.mem_flatMap.mpr ⟨(n, o), hm, ?_⟩
    simp [hp]

/-- C9 witness: the amended statement evaluated at the `posts` table body
`t.references :category, polymorphic: true, foreign_key: true`. -/
theorem C9_witness :
    ((⟨"posts", "category_id", "categorys", "id", none, none⟩ :
        SchemaParser.SchemaForeignKey) ∈
      (SchemaParser.parseColumns "posts"
        "t.references :category, polymorphic: true, foreign_key: true").2)
    ∧ ((⟨"category_type", "string", true, none, none, none, none⟩ :
        SchemaParser.SchemaColumn) ∈
      (SchemaParser.parseColumns "posts"
        "t.references :category, polymorphic: true, foreign_key: true").1) := by
  have h := C9_amended "posts"
    "t.references :category, polymorphic: true, foreign_key: true"
    "category" "polymorphic: true, foreign_key: true" (by decide)
  exact ⟨h.2.1 (by decide), h.2.2 (by decide)⟩

/-- C10 counterexample: on a `SchemaParser` instance that earlier parsed a
content declaring version 2024, `parseContent` of a version-free content
reports the stale version 2024, while a fresh instance reports none — the
result is not a function of the input alone. -/
theorem C10_counterexample :
    (SchemaParser.parseContentS
        ((SchemaParser.parseContentS none
            "ActiveRecord::Schema[7.0].define(version: 2024) do").2) "").1
      ≠ (SchemaParser.parseContentS none "").1 := by
  decide

/-- C10 (amended): the tables and foreign keys `parseContent` returns depend
only on the content (the instance-level lists are cleared on entry), but the
returned version is the content's declared version when present and otherwise
whatever version the instance retained from earlier parses; it is absent for a
declaration-free content only on a fresh instance. -/
theorem C10_amended (p : Option String) (c : String) :
    ((SchemaParser.parseContentS p c).1.tables
        = (SchemaParser.parseContentS none c).1.tables)
    ∧ ((SchemaParser.parseContentS p c).1.foreign_keys
        = (SchemaParser.parseContentS none c).1.foreign_keys)
    ∧ ((SchemaParser.parseContentS p c).1.version
        = (match SchemaParser.extractVersion c with
           | some v => some v
           | none => p))
    ∧ ((SchemaParser.parseContentS p c).2 = (SchemaParser.parseContentS p c).1.version) :=
  ⟨rfl, rfl, rfl, rfl⟩

/-- C1: the failing input evaluated. A stored file (id 1) holds one symbol row
from its first indexing; its content then changes (hash "h0" → "h1", mtime
newer). The current `indexFile` re-parses and persists — but, deleting nothing
and opening no transaction, it leaves TWO symbol rows for the file, the stale
row among them; the repository's transactional delete-then-insert indexer
(part_006) leaves exactly the new parse result's one row on the same input. -/
theorem C1_no_delete_duplicates_symbols :
    (let db0 := Indexer.indexFilePersist ⟨[], [], 1, 1⟩ "app/models/user.rb" "h0"
        "model" 10 1000 [⟨"User", "class", none, 1, 10, none, "public", none⟩] []
     let db1 := Indexer.indexFileStep false db0 "app/models/user.rb" "h1"
        "model" 12 2000 2000 [⟨"User", "class", none, 1, 12, none, "public", none⟩] []
     (Indexer.symbolsForFile db1 1).length = 2
       ∧ (⟨1, 1, "User", "class", none, 1, 10, none, "public", none⟩ :
            Indexer.SymbolRecord) ∈ Indexer.symbolsForFile db1 1)
    ∧ (let db0 := Indexer.indexFilePersistTxn ⟨[], [], 1, 1⟩ "app/models/user.rb" "h0"
        "model" 10 1000 [⟨"User", "class", none, 1, 10, none, "public", none⟩]
       let db1 := Indexer.indexFilePersistTxn db0 "app/models/user.rb" "h1"
        "model" 12 2000 [⟨"User", "class", none, 1, 12, none, "public", none⟩]
       (Indexer.symbolsForFile db1 1).length = 1) := by
  refine ⟨⟨by decide, by decide⟩, by decide⟩

/-- C2 counterexample: a stored file whose on-disk fingerprint differs
("h0" vs "h1") but whose mtime (3) is not newer than its recorded
last-indexed time (5) is NOT re-derived by an incremental run — the
modification-time gate suppresses exactly the re-derivation the claim says it
never suppresses. -/
theorem C2_counterexample :
    Indexer.incrementalRederives false
      (some ⟨1, "app/models/user.rb", "h0", some 5, "model", 10⟩) "h1" 3 = false := by
  decide

/-- C2 (amended): in regex-parser mode `indexFile` itself re-parses a file iff
it is new or its fingerprint differs; but (i) an incremental run additionally
gates on mtime and so can skip a fingerprint-changed file (the
counterexample), and (ii) it still never re-derives a fingerprint-unchanged
file in regex mode, while (iii) in native-parser mode `indexFile` re-parses
even an unchanged file whose mtime is not older than its last-indexed time. -/
theorem C2_amended :
    (∀ (existing : Option Indexer.FileRecord) (h : String) (m : Int),
        Indexer.shouldParse false existing h m =
          (match existing with
           | none => true
           | some f => !(f.hash == h)))
    ∧ (∀ (f : Indexer.FileRecord) (h : String) (m : Int),
        (Indexer.incrementalRederives false (some f) h m && (f.hash == h)) = false)
    ∧ Indexer.shouldParse true
        (some ⟨1, "a.rb", "h0", some 5, "ruby", 10⟩) "h0" 6 = true := by
  refine ⟨?_, ?_, by decide⟩
  · intro existing h m
    cases existing with
    | none => rfl
    | some f =>
      unfold Indexer.shouldParse
      dsimp only
      by_cases hh : f.hash = h
      · rw [if_pos ⟨hh, rfl⟩]
        simp [hh]
      · rw [if_neg (fun hc => hh hc.1)]
        cases hl : f.last_indexed with
        | none => simp [beq_iff_eq, hh]
        | some li =>
          dsimp only
          rw [if_neg (fun hc => hh hc.2)]
          simp [beq_iff_eq, hh]
  · intro f h m
    by_cases hh : f.hash = h
    · have h1 : Indexer.shouldParse false (some f) h m = false := by
        unfold Indexer.shouldParse
        dsimp only
        rw [if_pos ⟨hh, rfl⟩]
      unfold Indexer.incrementalRederives
      rw [h1]
      simp
    · simp [beq_iff_eq, hh]
